import Mathlib

/-!
Verification of the Gaussian-elimination engine of the repository
(`linsys.py`, `plane.py`, `vector.py`).

The Python code computes over floating-point numbers (and occasionally
`Decimal`); this development embeds the algorithms over `ℚ` with exact
arithmetic, translating the two near-zero predicates of the source exactly:

* `round(x, 9) == 0` (used by `Plane.first_nonzero_index` and by the
  classification helpers) becomes `|x| ≤ 1/2000000000` — under exact
  round-half-to-even semantics, `x` rounds to `0` at nine decimal places
  exactly when `|x| ≤ 0.5e-9` (the tie goes to the even value `0`);
* `MyDecimal.is_near_zero` (`abs(self) < 1e-10`, used for pivot selection in
  `compute_triangular_form`) becomes `|x| < 1/10000000000`.

Division in `ℚ` is total (`x / 0 = 0`); every division performed by the
algorithms on the inputs considered here divides by a value that the source's
own guards ensure is nonzero.
-/

namespace LinAlg

/-- The test `round(x, 9) == 0` of the Python source (`plane.py`,
`first_nonzero_index`; `linsys.py`, `_no_intersections` and
`_infinite_solutions`), under exact round-half-to-even semantics. -/
def round9zero (x : ℚ) : Bool := |x| ≤ 1 / 2000000000

/-- `MyDecimal.is_near_zero` of `linsys.py` with the default `eps = 1e-10`. -/
def isNearZero (x : ℚ) : Bool := |x| < 1 / 10000000000

/-- An equation row (`Plane` of `plane.py`): a coefficient vector plus a
constant term, representing `coeffs · x = const`. -/
structure Plane where
  coeffs : List ℚ
  const : ℚ
deriving DecidableEq

/-- `Plane.dimension`: the length of the coefficient vector. -/
def Plane.dimension (p : Plane) : ℕ := p.coeffs.length

/-- `Plane.first_nonzero_index`: index of the first coefficient with
`round(item, 9) != 0`; `none` models the raised
`NO_NONZERO_ELTS_FOUND_MSG` exception. -/
def firstNonzeroIndex : List ℚ → Option ℕ
  | [] => none
  | x :: xs => if round9zero x then (firstNonzeroIndex xs).map (· + 1) else some 0

/-- The pivot lookup applied to a row's coefficients. -/
def pivotIdx (p : Plane) : Option ℕ := firstNonzeroIndex p.coeffs

/-- `LinearSystem` of `linsys.py`: an ordered list of rows plus the shared
dimension recorded at construction. -/
structure System where
  planes : List Plane
  dimension : ℕ
deriving DecidableEq

/-- Row access `self.planes[i]` (total; all uses stay in range). -/
def sysRow (S : System) (i : ℕ) : Plane := S.planes.getD i ⟨[], 0⟩

/-- Coefficient access `p.normal_vector.coordinates[j]` (total). -/
def rowCoeff (p : Plane) (j : ℕ) : ℚ := p.coeffs.getD j 0

/-- `LinearSystem._multiply`: every term of a row times a coefficient. -/
def scaleMul (k : ℚ) (p : Plane) : Plane :=
  ⟨p.coeffs.map (fun x => k * x), k * p.const⟩

/-- The row built by `add_multiple_times_row_to_row`: term-wise
`q[i] + k * p[i]` for `i` in `range(q.dimension)`, and the summed constants. -/
def addScaled (k : ℚ) (p q : Plane) : Plane :=
  ⟨(List.range q.coeffs.length).map (fun i => rowCoeff q i + k * rowCoeff p i),
   q.const + k * p.const⟩

/-- `LinearSystem.swap_rows` (simultaneous assignment). -/
def swapRows (S : System) (i j : ℕ) : System :=
  let a := sysRow S i
  let b := sysRow S j
  { S with planes := (S.planes.set i b).set j a }

/-- `LinearSystem.multiply_coefficient_and_row`. -/
def multiplyRow (S : System) (k : ℚ) (i : ℕ) : System :=
  { S with planes := S.planes.set i (scaleMul k (sysRow S i)) }

/-- `LinearSystem.add_multiple_times_row_to_row`. -/
def addMulRow (S : System) (k : ℚ) (src dst : ℕ) : System :=
  { S with planes := S.planes.set dst (addScaled k (sysRow S src) (sysRow S dst)) }

/-- `indices_of_first_nonzero_terms_in_each_row`
(the sentinel `-1` is modeled as `none`). -/
def pivotList (S : System) : List (Option ℕ) := S.planes.map pivotIdx

/-- `LinearSystem.clear_coefficients_below`: `beta` is read once from the
pivot row; each lower row `k` receives `alpha = -gamma / beta` times the
pivot row. -/
def clearBelow (S : System) (row col : ℕ) : System :=
  let beta := rowCoeff (sysRow S row) col
  (List.range' (row + 1) (S.planes.length - (row + 1))).foldl
    (fun sys k => addMulRow sys (-(rowCoeff (sysRow sys k) col) / beta) row k) S

/-- The search loop of `swap_row_below`: first row index among the candidates
whose coefficient at `col` is not near-zero. -/
def findSwap (S : System) (col : ℕ) : List ℕ → Option ℕ
  | [] => none
  | k :: ks => if isNearZero (rowCoeff (sysRow S k) col) then findSwap S col ks else some k

/-- `LinearSystem.swap_row_below`: `some` of the swapped system when a lower
row with a usable coefficient exists (the Python `True` branch, which
mutates in place), `none` for the `False` branch. -/
def swapRowBelow (S : System) (row col : ℕ) : Option System :=
  (findSwap S col (List.range' (row + 1) (S.planes.length - (row + 1)))).map
    (swapRows S row)

/-- The inner column scan of `compute_triangular_form` for one row:
near-zero coefficient and no swap ⇒ `continue` to the next column;
otherwise clear the column below and `break`. -/
def triCols (S : System) (row : ℕ) : List ℕ → System
  | [] => S
  | c :: cs =>
    if isNearZero (rowCoeff (sysRow S row) c) then
      match swapRowBelow S row c with
      | none => triCols S row cs
      | some S2 => clearBelow S2 row c
    else clearBelow S row c

/-- `LinearSystem.compute_triangular_form` (the body run on the deep copy;
see `computeTriangularFormCall` for the method's effect on `self`). -/
def computeTriangularForm (S : System) : System :=
  (List.range S.planes.length).foldl
    (fun sys row => triCols sys row (List.range sys.dimension)) S

/-- `LinearSystem.scale_row`: multiply row `i` by `1 / coefficient`. -/
def scaleRow (S : System) (i c : ℕ) : System :=
  multiplyRow S (1 / rowCoeff (sysRow S i) c) i

/-- `LinearSystem.clear_coefficients_above`: for `k = row-1 .. 0`, add
`-(self[k][col])` times the pivot row to row `k`. -/
def clearAbove (S : System) (row col : ℕ) : System :=
  ((List.range row).reverse).foldl
    (fun sys k => addMulRow sys (-(rowCoeff (sysRow sys k) col)) row k) S

/-- The reversed enumeration loop of `compute_rref`, with the pivot indices
computed once on the triangular form (as in the source). -/
def rrefLoop (pivots : List (Option ℕ)) : System → List ℕ → System
  | S, [] => S
  | S, i :: rest =>
    match pivots.getD i none with
    | none => rrefLoop pivots S rest
    | some c => rrefLoop pivots (clearAbove (scaleRow S i c) i c) rest

/-- `LinearSystem.compute_rref` (the body run on the working copy). -/
def computeRref (S : System) : System :=
  let T := computeTriangularForm S
  rrefLoop (pivotList T) T (List.range T.planes.length).reverse

/-- `LinearSystem._no_intersections`: some row raises the no-nonzero-elements
signal and has `round(constant, 9) != 0`. -/
def noIntersections (S : System) : Bool :=
  S.planes.any (fun p => (pivotIdx p).isNone && !(round9zero p.const))

/-- The row-dropping phase of `_infinite_solutions`: keep exactly the rows
having some coefficient with `round(item, 9) != 0`. -/
def dropZeroRows (S : System) : System :=
  { S with planes := S.planes.filter (fun p => p.coeffs.any (fun x => !(round9zero x))) }

/-- The decision of `_infinite_solutions` after the drop: fewer equations
than unknowns, or some row whose coefficient sum exceeds `1`. -/
def infiniteAfterDrop (S : System) : Bool :=
  decide (S.planes.length < S.dimension) ||
    S.planes.any (fun p => decide (1 < p.coeffs.sum))

/-- The accumulation loop of `_get_basepoint`; a row with no pivot breaks. -/
def bpLoop : List (Plane × Option ℕ) → List ℚ → List ℚ
  | [], acc => acc
  | (_, none) :: _, acc => acc
  | (p, some c) :: rest, acc => bpLoop rest (acc.set c p.const)

/-- `LinearSystem._get_basepoint`. -/
def getBasepoint (S : System) : List ℚ :=
  bpLoop (S.planes.zip (pivotList S)) (List.replicate S.dimension 0)

/-- The inner loop of `_get_direction_vectors` for one free variable;
a row with no pivot breaks. -/
def dvLoop (fv : ℕ) : List (Plane × Option ℕ) → List ℚ → List ℚ
  | [], acc => acc
  | (_, none) :: _, acc => acc
  | (p, some c) :: rest, acc => dvLoop fv rest (acc.set c (0 - rowCoeff p fv))

/-- Free-variable indices `set(range(num_var)) - set(pivot_indices)`,
modeled in increasing order (CPython iterates a set of small naturals in
exactly this order). -/
def freeCols (S : System) : List ℕ :=
  (List.range S.dimension).filter (fun c => !((pivotList S).contains (some c)))

/-- One direction vector of `_get_direction_vectors`: a `1` at the free
index, then `0 - coefficient_at_fv` written at each pivot column. -/
def dirVec (S : System) (fv : ℕ) : List ℚ :=
  dvLoop fv (S.planes.zip (pivotList S)) ((List.replicate S.dimension 0).set fv 1)

/-- `LinearSystem._get_direction_vectors`. -/
def getDirectionVectors (S : System) : List (List ℚ) :=
  (freeCols S).map (dirVec S)

/-- The classification outcome of `gaussian_elimination` as a tagged value:
the Python returns `NO_SOLUTIONS_MSG`, the `_parameters` rendering of
`(basepoint, direction vectors)`, or the tuple of constant terms; the
payloads here are the data those returns carry. -/
inductive GEResult where
  | noSolution : GEResult
  | parametric : List ℚ → List (List ℚ) → GEResult
  | unique : List ℚ → GEResult
deriving DecidableEq

/-- `LinearSystem.gaussian_elimination`: reduce to RREF, check for an
inconsistent row, drop trivial rows (a mutation of the RREF copy performed
inside `_infinite_solutions`), then classify. -/
def gaussianElimination (S : System) : GEResult :=
  let ge := computeRref S
  if noIntersections ge then .noSolution
  else
    let geD := dropZeroRows ge
    if infiniteAfterDrop geD then
      .parametric (getBasepoint geD) (getDirectionVectors geD)
    else .unique (geD.planes.map Plane.const)

/-! ## Basic identities about the row primitives -/

theorem set_self_of_getElem {α : Type} (l : List α) (i : ℕ) (h : i < l.length) :
    l.set i l[i] = l := by
  apply List.ext_getElem
  · simp
  · intro n h1 h2
    rw [List.getElem_set]
    split
    · subst n; rfl
    · rfl

theorem getD_range_map (l : List ℚ) :
    (List.range l.length).map (fun i => l.getD i 0) = l := by
  apply List.ext_getElem
  · simp
  · intro n h1 h2
    simp only [List.getElem_map, List.getElem_range]
    exact List.getD_eq_getElem l 0 h2

/-- Adding `0` times any row to a row reproduces the row exactly. -/
theorem addScaled_zero (p q : Plane) : addScaled 0 p q = q := by
  cases q with
  | mk c k =>
    simp only [addScaled, rowCoeff, zero_mul, add_zero, mul_zero]
    exact congrArg (Plane.mk · k) (getD_range_map c)

/-- Scaling a row by `1` reproduces the row exactly. -/
theorem scaleMul_one (p : Plane) : scaleMul 1 p = p := by
  cases p with
  | mk c k => simp [scaleMul]

/-! ## C4: the pivot-lookup tolerance -/

/-- Named after the spec's words for comparison (claim C4): index of the
first coefficient whose magnitude exceeds the fixed tolerance 1e-10. -/
def specFirstNonzeroIndex : List ℚ → Option ℕ
  | [] => none
  | x :: xs =>
    if 1 / 10000000000 < |x| then some 0 else (specFirstNonzeroIndex xs).map (· + 1)

/-- Characterization of the source's `first_nonzero_index`: it returns the
first index whose coefficient fails the `round(item, 9) == 0` test. -/
theorem firstNonzeroIndex_some_iff (l : List ℚ) (k : ℕ) :
    firstNonzeroIndex l = some k ↔
      k < l.length ∧ round9zero (l.getD k 0) = false ∧
        ∀ j < k, round9zero (l.getD j 0) = true := by
  induction l generalizing k with
  | nil => simp [firstNonzeroIndex]
  | cons x xs ih =>
    by_cases hx : round9zero x
    · simp only [firstNonzeroIndex, hx, if_true]
      constructor
      · intro h
        rcases Option.map_eq_some'.mp h with ⟨k0, hk0, rfl⟩
        rcases (ih k0).mp hk0 with ⟨h1, h2, h3⟩
        refine ⟨by simpa using h1, by simpa using h2, ?_⟩
        intro j hj
        cases j with
        | zero => simpa using hx
        | succ j0 => exact h3 j0 (Nat.lt_of_succ_lt_succ hj)
      · rintro ⟨h1, h2, h3⟩
        cases k with
        | zero => simp only [List.getD_cons_zero] at h2; rw [hx] at h2; cases h2
        | succ k0 =>
          have : firstNonzeroIndex xs = some k0 := by
            refine (ih k0).mpr ⟨Nat.lt_of_succ_lt_succ h1, by simpa using h2, ?_⟩
            intro j hj
            have := h3 (j + 1) (Nat.succ_lt_succ hj)
            simpa using this
          simp [this]
    · simp only [firstNonzeroIndex, hx, if_false]
      constructor
      · intro h
        have hk : k = 0 := by
          have := Option.some.injEq 0 k ▸ h
          exact (Option.some_inj.mp h).symm
        subst hk
        refine ⟨Nat.succ_pos _, by simpa using Bool.of_not_eq_true hx, fun j hj => absurd hj (Nat.not_lt_zero j)⟩
      · rintro ⟨h1, h2, h3⟩
        cases k with
        | zero => rfl
        | succ k0 =>
          have := h3 0 (Nat.succ_pos k0)
          simp only [List.getD_cons_zero] at this
          exact absurd this hx

theorem firstNonzeroIndex_none_iff (l : List ℚ) :
    firstNonzeroIndex l = none ↔ ∀ j < l.length, round9zero (l.getD j 0) = true := by
  induction l with
  | nil => simp [firstNonzeroIndex]
  | cons x xs ih =>
    by_cases hx : round9zero x
    · simp only [firstNonzeroIndex, hx, if_true, Option.map_eq_none', ih]
      constructor
      · intro h j hj
        cases j with
        | zero => simpa using hx
        | succ j0 => exact h j0 (Nat.lt_of_succ_lt_succ hj)
      · intro h j hj
        have := h (j + 1) (Nat.succ_lt_succ hj)
        simpa using this
    · simp only [firstNonzeroIndex, hx, if_false]
      constructor
      · intro h; cases h
      · intro h
        have := h 0 (Nat.succ_pos _)
        simp only [List.getD_cons_zero] at this
        exact absurd this hx

/-- C4 counterexample: on the row `[4e-10, 1]` the spec's ε = 1e-10 rule
picks index 0, but `first_nonzero_index` (which tests `round(item, 9) == 0`)
returns index 1. -/
theorem C4_counterexample :
    specFirstNonzeroIndex [4 / 10000000000, 1] = some 0 ∧
      pivotIdx ⟨[4 / 10000000000, 1], 0⟩ = some 1 := by
  with_unfolding_all decide

/-- C4 amended: `first_nonzero_index` returns the index of the first
coefficient with `round(item, 9) != 0` (none when every coefficient rounds
to zero at nine places); the ε = 1e-10 `is_near_zero` test is used for pivot
selection during triangularization but is strictly more permissive than the
round-9 test used by pivot lookup and classification, and the two genuinely
disagree. -/
theorem C4_amended_pivot_rule :
    (∀ p : Plane, ∀ k : ℕ,
        pivotIdx p = some k ↔
          k < p.coeffs.length ∧ round9zero (rowCoeff p k) = false ∧
            ∀ j < k, round9zero (rowCoeff p j) = true) ∧
    (∀ p : Plane,
        pivotIdx p = none ↔ ∀ j < p.coeffs.length, round9zero (rowCoeff p j) = true) ∧
    (∀ x : ℚ, isNearZero x = true → round9zero x = true) ∧
    (∃ x : ℚ, round9zero x = true ∧ isNearZero x = false) := by
  refine ⟨fun p k => firstNonzeroIndex_some_iff p.coeffs k,
    fun p => firstNonzeroIndex_none_iff p.coeffs, ?_,
    ⟨4 / 10000000000, by with_unfolding_all decide⟩⟩
  intro x hx
  simp only [isNearZero, decide_eq_true_eq] at hx
  simp only [round9zero, decide_eq_true_eq]
  linarith

/-! ## C9: row/vector construction -/

/-- The failure modes of `Vector.__init__` in `vector.py`: the empty check
(`ValueError('The coordinates must be nonempty')`) runs first, then the
`dimension < 2` check (`IndexError('Vector needs at least 2 coordinates')`). -/
inductive VectorError where
  | emptyCoordinates : VectorError
  | tooFewCoordinates : VectorError
deriving DecidableEq

/-- `Vector.__init__` of `vector.py`. -/
def mkVector (l : List ℚ) : Except VectorError (List ℚ) :=
  if l.isEmpty then .error .emptyCoordinates
  else if l.length < 2 then .error .tooFewCoordinates
  else .ok l

/-- C9 counterexample: the nonempty one-element coefficient list `[3]` is
rejected at construction, so construction does not fail only on empty input
and length 1 is not accepted. -/
theorem C9_counterexample :
    mkVector [(3 : ℚ)] = .error .tooFewCoordinates ∧ ([(3 : ℚ)] : List ℚ) ≠ [] :=
  ⟨rfl, by simp⟩

/-- C9 amended: construction succeeds exactly when the coefficient sequence
has at least two entries; the empty sequence fails with the nonempty error
and a one-element sequence fails with the at-least-2 error. -/
theorem C9_amended_construction :
    (∀ l : List ℚ, (∃ v, mkVector l = .ok v) ↔ 2 ≤ l.length) ∧
    mkVector [] = .error .emptyCoordinates ∧
    mkVector [(3 : ℚ)] = .error .tooFewCoordinates := by
  refine ⟨?_, rfl, rfl⟩
  intro l
  rcases l with _ | ⟨x, _ | ⟨y, rest⟩⟩
  · constructor
    · rintro ⟨v, hv⟩; simp [mkVector] at hv
    · intro h; simp at h
  · constructor
    · rintro ⟨v, hv⟩; simp [mkVector] at hv
    · intro h; simp at h
  · constructor
    · intro _
      simp [List.length_cons]
    · intro _
      refine ⟨x :: y :: rest, ?_⟩
      have h1 : (x :: y :: rest).isEmpty = false := rfl
      have h2 : ¬((x :: y :: rest).length < 2) := by simp
      simp [mkVector, h1, h2]

/-! ## C10: exactness of row equality -/

/-- `Plane.__eq__` of `plane.py`: equal dimensions, exactly equal constants,
and exactly equal coefficients at each index below the dimension. -/
def planeEq (p q : Plane) : Bool :=
  p.dimension == q.dimension && p.const == q.const &&
    (List.range p.dimension).all (fun i => rowCoeff p i == rowCoeff q i)

/-- C10: row equality is exact, never tolerance-based; two rows differing by
less than the near-zero tolerance still compare unequal. -/
theorem C10_planeEq_exact :
    (∀ p q : Plane, planeEq p q = true ↔
        p.dimension = q.dimension ∧ p.const = q.const ∧
          ∀ i < p.dimension, rowCoeff p i = rowCoeff q i) ∧
    planeEq ⟨[1, 0], 0⟩ ⟨[1, 1 / 100000000000000000000], 0⟩ = false ∧
    |(1 / 100000000000000000000 : ℚ) - 0| < 1 / 10000000000 := by
  refine ⟨?_, by with_unfolding_all decide, by with_unfolding_all decide⟩
  intro p q
  simp only [planeEq, Bool.and_eq_true, beq_iff_eq, List.all_eq_true, List.mem_range]
  tauto

/-! ## C6: the two elimination algorithms work on a copy of `self` -/

/-- The effect of calling `compute_triangular_form` on a system, with the
state made explicit: the method deep-copies `self`, mutates only the copy,
and returns it; the pair is (state of `self` after the call, returned
system). -/
def computeTriangularFormCall (S : System) : System × System :=
  (S, computeTriangularForm S)

/-- The effect of calling `compute_rref`, with the state made explicit
(the method works entirely on the deep copy made by
`compute_triangular_form`). -/
def computeRrefCall (S : System) : System × System :=
  (S, computeRref S)

/-- C6: after `compute_triangular_form` and after `compute_rref` the calling
system (its row list and every row in it) is unchanged; the result is a
separately built system. -/
theorem C6_no_mutation (S : System) :
    (computeTriangularFormCall S).1 = S ∧
      (computeTriangularFormCall S).2 = computeTriangularForm S ∧
      (computeRrefCall S).1 = S ∧
      (computeRrefCall S).2 = computeRref S :=
  ⟨rfl, rfl, rfl, rfl⟩

/-! ## Counterexamples to C5, C7, C8 -/

/-- A system whose triangularization pivots on `2e-10` (not near-zero for
the 1e-10 test) while the recorded pivot lookup (round-9 test) sees that
entry as zero: the RREF scaling then amplifies it past every tolerance. -/
def c5Sys : System :=
  ⟨[⟨[2 / 10000000000, 1 / 1000000000, 0], 0⟩, ⟨[0, 0, 1], 1⟩], 3⟩

/-- C5 counterexample: in `compute_rref`'s output on `c5Sys` the first row
has a pivot (first non-near-zero coefficient, at index 0) whose coefficient
is `1/5`, not `1`. -/
theorem C5_counterexample :
    pivotIdx (sysRow (computeRref c5Sys) 0) = some 0 ∧
      rowCoeff (sysRow (computeRref c5Sys) 0) 0 ≠ 1 := by
  with_unfolding_all decide

/-- C8 counterexample: full reduction is not idempotent on `c5Sys`. -/
theorem C8_counterexample :
    computeRref (computeRref c5Sys) ≠ computeRref c5Sys := by
  with_unfolding_all decide

/-- A system with the unique solution `(1, 1)`. -/
def c7Sys : System := ⟨[⟨[1, 0], 1⟩, ⟨[0, 1], 1⟩], 2⟩

/-- C7 counterexample: scaling row 0 of `c7Sys` by the nonzero scalar
`1e-20` changes the classification from a unique solution to a parametric
one. -/
theorem C7_counterexample :
    gaussianElimination c7Sys = .unique [1, 1] ∧
      (1 / 100000000000000000000 : ℚ) ≠ 0 ∧
      gaussianElimination (multiplyRow c7Sys (1 / 100000000000000000000) 0) =
        .parametric [0, 1] [[1, 0]] := by
  refine ⟨by with_unfolding_all decide, by norm_num, by with_unfolding_all decide⟩

/-! ## Shape invariance of the elimination passes -/

theorem getD_set_ne {α : Type} (l : List α) (m n : ℕ) (a d : α) (h : m ≠ n) :
    (l.set m a).getD n d = l.getD n d := by
  rcases Nat.lt_or_ge n l.length with h1 | h1
  · rw [List.getD_eq_getElem _ _ (by simpa using h1), List.getD_eq_getElem _ _ h1,
      List.getElem_set_ne h]
  · rw [List.getD_eq_default _ _ (by simpa using h1), List.getD_eq_default _ _ h1]

theorem getD_set_self_lt {α : Type} (l : List α) (m : ℕ) (a d : α) (h : m < l.length) :
    (l.set m a).getD m d = a := by
  rw [List.getD_eq_getElem _ _ (by simpa using h), List.getElem_set_self]

theorem length_addMulRow (S : System) (k : ℚ) (s d : ℕ) :
    (addMulRow S k s d).planes.length = S.planes.length := by
  simp [addMulRow]

theorem dim_addMulRow (S : System) (k : ℚ) (s d : ℕ) :
    (addMulRow S k s d).dimension = S.dimension := rfl

theorem length_multiplyRow (S : System) (k : ℚ) (i : ℕ) :
    (multiplyRow S k i).planes.length = S.planes.length := by
  simp [multiplyRow]

theorem dim_multiplyRow (S : System) (k : ℚ) (i : ℕ) :
    (multiplyRow S k i).dimension = S.dimension := rfl

theorem length_swapRows (S : System) (i j : ℕ) :
    (swapRows S i j).planes.length = S.planes.length := by
  simp [swapRows]

theorem dim_swapRows (S : System) (i j : ℕ) :
    (swapRows S i j).dimension = S.dimension := rfl

/-- Shape (row count and dimension) is preserved by a fold whose step
preserves it. -/
theorem foldl_shape {α : Type} (f : System → α → System)
    (hf : ∀ sys a, (f sys a).planes.length = sys.planes.length ∧
      (f sys a).dimension = sys.dimension) :
    ∀ (ks : List α) (S : System),
      (ks.foldl f S).planes.length = S.planes.length ∧
        (ks.foldl f S).dimension = S.dimension := by
  intro ks
  induction ks with
  | nil => exact fun S => ⟨rfl, rfl⟩
  | cons k ks ih =>
    intro S
    have h1 := hf S k
    have h2 := ih (f S k)
    exact ⟨h2.1.trans h1.1, h2.2.trans h1.2⟩

theorem shape_clearBelow (S : System) (row col : ℕ) :
    (clearBelow S row col).planes.length = S.planes.length ∧
      (clearBelow S row col).dimension = S.dimension := by
  unfold clearBelow
  exact foldl_shape _ (fun sys k => ⟨length_addMulRow _ _ _ _, rfl⟩) _ S

theorem shape_clearAbove (S : System) (row col : ℕ) :
    (clearAbove S row col).planes.length = S.planes.length ∧
      (clearAbove S row col).dimension = S.dimension := by
  unfold clearAbove
  exact foldl_shape _ (fun sys k => ⟨length_addMulRow _ _ _ _, rfl⟩) _ S

theorem shape_triCols (row : ℕ) :
    ∀ (cs : List ℕ) (S : System),
      (triCols S row cs).planes.length = S.planes.length ∧
        (triCols S row cs).dimension = S.dimension := by
  intro cs
  induction cs with
  | nil => exact fun S => ⟨rfl, rfl⟩
  | cons c cs ih =>
    intro S
    unfold triCols
    by_cases h : isNearZero (rowCoeff (sysRow S row) c) = true
    · rw [if_pos h]
      cases hsw : swapRowBelow S row c with
      | none => exact ih S
      | some S2 =>
        rcases Option.map_eq_some'.mp hsw with ⟨k, hk, rfl⟩
        have h1 := shape_clearBelow (swapRows S row k) row c
        have h2 : (swapRows S row k).planes.length = S.planes.length := length_swapRows S row k
        exact ⟨h1.1.trans h2, h1.2⟩
    · rw [if_neg h]
      exact shape_clearBelow S row c

theorem shape_computeTriangularForm (S : System) :
    (computeTriangularForm S).planes.length = S.planes.length ∧
      (computeTriangularForm S).dimension = S.dimension := by
  unfold computeTriangularForm
  exact foldl_shape _ (fun sys row => shape_triCols row _ sys) _ S

theorem shape_rrefLoop (pivots : List (Option ℕ)) :
    ∀ (idxs : List ℕ) (S : System),
      (rrefLoop pivots S idxs).planes.length = S.planes.length ∧
        (rrefLoop pivots S idxs).dimension = S.dimension := by
  intro idxs
  induction idxs with
  | nil => exact fun S => ⟨rfl, rfl⟩
  | cons i rest ih =>
    intro S
    unfold rrefLoop
    cases hpi : pivots.getD i none with
    | none => exact ih S
    | some c =>
      have h1 := ih (clearAbove (scaleRow S i c) i c)
      have h2 := shape_clearAbove (scaleRow S i c) i c
      have h3 : (scaleRow S i c).planes.length = S.planes.length :=
        length_multiplyRow _ _ _
      exact ⟨h1.1.trans (h2.1.trans h3), h1.2.trans h2.2⟩

theorem shape_computeRref (S : System) :
    (computeRref S).planes.length = S.planes.length ∧
      (computeRref S).dimension = S.dimension := by
  unfold computeRref
  have h1 := shape_rrefLoop (pivotList (computeTriangularForm S))
    (List.range (computeTriangularForm S).planes.length).reverse (computeTriangularForm S)
  have h2 := shape_computeTriangularForm S
  exact ⟨h1.1.trans h2.1, h1.2.trans h2.2⟩

/-! ## C3: an inconsistent zero-coefficient row forces NoSolution -/

/-- A row whose coefficients are all exactly zero. -/
def ZeroCoeffRow (p : Plane) : Prop := ∀ x ∈ p.coeffs, x = 0

instance (p : Plane) : Decidable (ZeroCoeffRow p) :=
  decidable_of_iff (∀ x ∈ p.coeffs, x = 0) Iff.rfl

theorem zeroCoeff_rowCoeff (p : Plane) (h : ZeroCoeffRow p) (j : ℕ) :
    rowCoeff p j = 0 := by
  unfold rowCoeff
  rcases Nat.lt_or_ge j p.coeffs.length with h1 | h1
  · rw [List.getD_eq_getElem _ _ h1]
    exact h _ (List.getElem_mem h1)
  · exact List.getD_eq_default _ _ h1

theorem zeroCoeff_pivotIdx (p : Plane) (h : ZeroCoeffRow p) : pivotIdx p = none := by
  rw [show pivotIdx p = firstNonzeroIndex p.coeffs from rfl, firstNonzeroIndex_none_iff]
  intro j hj
  have := zeroCoeff_rowCoeff p h j
  rw [show p.coeffs.getD j 0 = rowCoeff p j from rfl, this]
  with_unfolding_all decide

/-- The `clear_coefficients_below` fold leaves a zero-coefficient row
untouched: the multiplier computed for that row is `-0 / beta = 0`. -/
theorem foldDiv_preserves_zero (beta : ℚ) (row col i : ℕ) :
    ∀ (ks : List ℕ) (S : System), ZeroCoeffRow (sysRow S i) →
      sysRow (ks.foldl
        (fun sys k => addMulRow sys (-(rowCoeff (sysRow sys k) col) / beta) row k) S) i
        = sysRow S i := by
  intro ks
  induction ks with
  | nil => exact fun S _ => rfl
  | cons k ks ih =>
    intro S h
    by_cases hk : k = i
    · subst hk
      have hcoef : rowCoeff (sysRow S k) col = 0 := zeroCoeff_rowCoeff _ h col
      have hstep : sysRow (addMulRow S (-(rowCoeff (sysRow S k) col) / beta) row k) k
          = sysRow S k := by
        rw [hcoef]
        simp only [neg_zero, zero_div]
        unfold addMulRow sysRow
        rcases Nat.lt_or_ge k S.planes.length with h1 | h1
        · rw [getD_set_self_lt _ _ _ _ h1]
          exact addScaled_zero _ _
        · rw [List.set_eq_of_length_le h1]
      rw [List.foldl_cons, ih _ (by rw [hstep]; exact h), hstep]
    · have hstep : sysRow (addMulRow S (-(rowCoeff (sysRow S k) col) / beta) row k) i
          = sysRow S i := by
        unfold addMulRow sysRow
        exact getD_set_ne _ _ _ _ _ hk
      rw [List.foldl_cons, ih _ (by rw [hstep]; exact h), hstep]

theorem clearBelow_preserves_zero (S : System) (row col i : ℕ)
    (h : ZeroCoeffRow (sysRow S i)) :
    sysRow (clearBelow S row col) i = sysRow S i := by
  unfold clearBelow
  exact foldDiv_preserves_zero _ row col i _ S h

/-- The `clear_coefficients_above` fold likewise leaves a zero-coefficient
row untouched: the multiplier computed for it is `-0 = 0`. -/
theorem foldNeg_preserves_zero (row col i : ℕ) :
    ∀ (ks : List ℕ) (S : System), ZeroCoeffRow (sysRow S i) →
      sysRow (ks.foldl
        (fun sys k => addMulRow sys (-(rowCoeff (sysRow sys k) col)) row k) S) i
        = sysRow S i := by
  intro ks
  induction ks with
  | nil => exact fun S _ => rfl
  | cons k ks ih =>
    intro S h
    by_cases hk : k = i
    · subst hk
      have hcoef : rowCoeff (sysRow S k) col = 0 := zeroCoeff_rowCoeff _ h col
      have hstep : sysRow (addMulRow S (-(rowCoeff (sysRow S k) col)) row k) k
          = sysRow S k := by
        rw [hcoef]
        simp only [neg_zero]
        unfold addMulRow sysRow
        rcases Nat.lt_or_ge k S.planes.length with h1 | h1
        · rw [getD_set_self_lt _ _ _ _ h1]
          exact addScaled_zero _ _
        · rw [List.set_eq_of_length_le h1]
      rw [List.foldl_cons, ih _ (by rw [hstep]; exact h), hstep]
    · have hstep : sysRow (addMulRow S (-(rowCoeff (sysRow S k) col)) row k) i
          = sysRow S i := by
        unfold addMulRow sysRow
        exact getD_set_ne _ _ _ _ _ hk
      rw [List.foldl_cons, ih _ (by rw [hstep]; exact h), hstep]

theorem clearAbove_preserves_zero (S : System) (row col i : ℕ)
    (h : ZeroCoeffRow (sysRow S i)) :
    sysRow (clearAbove S row col) i = sysRow S i := by
  unfold clearAbove
  exact foldNeg_preserves_zero row col i _ S h

/-- The invariant C3 tracks: some in-range row has all-zero coefficients and
constant term `c`. -/
def HasZeroRowConst (c : ℚ) (S : System) : Prop :=
  ∃ i < S.planes.length, ZeroCoeffRow (sysRow S i) ∧ (sysRow S i).const = c

theorem swapRows_hasZeroRow (c : ℚ) (S : System) (a b : ℕ)
    (ha : a < S.planes.length) (hb : b < S.planes.length)
    (h : HasZeroRowConst c S) : HasZeroRowConst c (swapRows S a b) := by
  rcases h with ⟨i, hi, hz, hc⟩
  have hlen : (swapRows S a b).planes.length = S.planes.length := length_swapRows S a b
  by_cases hia : i = a
  · subst hia
    refine ⟨b, by rw [hlen]; exact hb, ?_⟩
    have : sysRow (swapRows S i b) b = sysRow S i := by
      unfold swapRows sysRow
      exact getD_set_self_lt _ _ _ _ (by simpa using hb)
    rw [this]
    exact ⟨hz, hc⟩
  · by_cases hib : i = b
    · subst hib
      refine ⟨a, by rw [hlen]; exact ha, ?_⟩
      have : sysRow (swapRows S a i) a = sysRow S i := by
        unfold swapRows sysRow
        by_cases hab : a = i
        · subst hab
          rw [getD_set_self_lt _ _ _ _ (by simpa using ha)]
        · rw [getD_set_ne _ _ _ _ _ (fun e => hab e.symm),
            getD_set_self_lt _ _ _ _ ha]
      rw [this]
      exact ⟨hz, hc⟩
    · refine ⟨i, by rw [hlen]; exact hi, ?_⟩
      have : sysRow (swapRows S a b) i = sysRow S i := by
        unfold swapRows sysRow
        rw [getD_set_ne _ _ _ _ _ (fun e => hib e.symm),
          getD_set_ne _ _ _ _ _ (fun e => hia e.symm)]
      rw [this]
      exact ⟨hz, hc⟩

theorem findSwap_mem (S : System) (col : ℕ) :
    ∀ (ks : List ℕ) (k : ℕ), findSwap S col ks = some k → k ∈ ks := by
  intro ks
  induction ks with
  | nil => intro k h; cases h
  | cons a ks ih =>
    intro k h
    unfold findSwap at h
    by_cases ha : isNearZero (rowCoeff (sysRow S a) col)
    · rw [if_pos ha] at h
      exact List.mem_cons_of_mem _ (ih k h)
    · rw [if_neg ha] at h
      cases h
      exact List.mem_cons_self _ _

theorem triCols_hasZeroRow (c : ℚ) (row : ℕ) :
    ∀ (cs : List ℕ) (S : System), row < S.planes.length →
      HasZeroRowConst c S → HasZeroRowConst c (triCols S row cs) := by
  intro cs
  induction cs with
  | nil => exact fun S _ h => h
  | cons col cs ih =>
    intro S hrow h
    unfold triCols
    by_cases hnz : isNearZero (rowCoeff (sysRow S row) col) = true
    · rw [if_pos hnz]
      cases hsw : swapRowBelow S row col with
      | none => exact ih S hrow h
      | some S2 =>
        rcases Option.map_eq_some'.mp hsw with ⟨k, hk, rfl⟩
        have hkmem := findSwap_mem S col _ k hk
        have hklt : k < S.planes.length := by
          rcases List.mem_range'_1.mp hkmem with ⟨h1, h2⟩
          omega
        have hzp2 := swapRows_hasZeroRow c S row k hrow hklt h
        rcases hzp2 with ⟨i, hi, hz, hc⟩
        have hlen := shape_clearBelow (swapRows S row k) row col
        refine ⟨i, by rw [hlen.1]; exact hi, ?_⟩
        rw [clearBelow_preserves_zero _ row col i hz]
        exact ⟨hz, hc⟩
    · rw [if_neg hnz]
      rcases h with ⟨i, hi, hz, hc⟩
      have hlen := shape_clearBelow S row col
      refine ⟨i, by rw [hlen.1]; exact hi, ?_⟩
      rw [clearBelow_preserves_zero S row col i hz]
      exact ⟨hz, hc⟩

theorem computeTriangularForm_hasZeroRow (c : ℚ) (S : System)
    (h : HasZeroRowConst c S) :
    HasZeroRowConst c (computeTriangularForm S) := by
  unfold computeTriangularForm
  have main : ∀ (ks : List ℕ) (T : System),
      (∀ r ∈ ks, r < S.planes.length) →
      T.planes.length = S.planes.length → HasZeroRowConst c T →
      HasZeroRowConst c
        (ks.foldl (fun sys row => triCols sys row (List.range sys.dimension)) T) := by
    intro ks
    induction ks with
    | nil => exact fun T _ _ h => h
    | cons r ks ih =>
      intro T hmem hlen hzp
      rw [List.foldl_cons]
      have hr : r < T.planes.length := by
        rw [hlen]; exact hmem r (List.mem_cons_self _ _)
      have h2 := triCols_hasZeroRow c r (List.range T.dimension) T hr hzp
      have hlen2 := shape_triCols r (List.range T.dimension) T
      exact ih _ (fun a ha => hmem a (List.mem_cons_of_mem _ ha))
        (hlen2.1.trans hlen) h2
  exact main _ S (fun r hr => List.mem_range.mp hr) rfl h

/-- The `compute_rref` loop never touches a row whose recorded pivot index is
the no-pivot sentinel: that row is skipped when its own index comes up, is
not the scaling target of any other index, and receives only `-0 = 0`
multiples during upward clearing. -/
theorem rrefLoop_preserves_zero_at (pivots : List (Option ℕ)) (iz : ℕ)
    (hnone : pivots.getD iz none = none) :
    ∀ (idxs : List ℕ) (S : System), ZeroCoeffRow (sysRow S iz) →
      sysRow (rrefLoop pivots S idxs) iz = sysRow S iz := by
  intro idxs
  induction idxs with
  | nil => exact fun S _ => rfl
  | cons i rest ih =>
    intro S hz
    unfold rrefLoop
    cases hpi : pivots.getD i none with
    | none => exact ih S hz
    | some ci =>
      have hne : i ≠ iz := by
        intro e
        subst e
        rw [hnone] at hpi
        cases hpi
      have h1 : sysRow (scaleRow S i ci) iz = sysRow S iz := by
        unfold scaleRow multiplyRow sysRow
        exact getD_set_ne _ _ _ _ _ hne
      have h2 : sysRow (clearAbove (scaleRow S i ci) i ci) iz = sysRow S iz := by
        rw [clearAbove_preserves_zero _ i ci iz (by rw [h1]; exact hz)]
        exact h1
      rw [ih _ (by rw [h2]; exact hz), h2]

theorem computeRref_hasZeroRow (c : ℚ) (S : System) (h : HasZeroRowConst c S) :
    HasZeroRowConst c (computeRref S) := by
  have hT := computeTriangularForm_hasZeroRow c S h
  rcases hT with ⟨iz, hiz, hz, hc⟩
  have hnone : (pivotList (computeTriangularForm S)).getD iz none = none := by
    unfold pivotList
    rw [List.getD_eq_getElem _ _ (by simpa using hiz), List.getElem_map]
    have : (computeTriangularForm S).planes[iz] = sysRow (computeTriangularForm S) iz := by
      unfold sysRow
      rw [List.getD_eq_getElem _ _ hiz]
    rw [this]
    exact zeroCoeff_pivotIdx _ hz
  unfold computeRref
  have hpres := rrefLoop_preserves_zero_at (pivotList (computeTriangularForm S)) iz hnone
    (List.range (computeTriangularForm S).planes.length).reverse
    (computeTriangularForm S) hz
  have hlen := shape_rrefLoop (pivotList (computeTriangularForm S))
    (List.range (computeTriangularForm S).planes.length).reverse (computeTriangularForm S)
  exact ⟨iz, by rw [hlen.1]; exact hiz, by rw [hpres]; exact hz, by rw [hpres]; exact hc⟩


theorem noIntersections_of_zeroRow (S : System) (c : ℚ) (hc : round9zero c = false)
    (h : HasZeroRowConst c S) : noIntersections S = true := by
  rcases h with ⟨i, hi, hz, hcc⟩
  unfold noIntersections
  rw [List.any_eq_true]
  refine ⟨sysRow S i, ?_, ?_⟩
  · have : sysRow S i = S.planes[i] := by
      unfold sysRow
      rw [List.getD_eq_getElem _ _ hi]
    rw [this]
    exact List.getElem_mem hi
  · rw [zeroCoeff_pivotIdx _ hz, hcc, hc]
    rfl

/-- C3: (a) whenever the RREF form contains a row with no pivot and a
constant that does not round to zero, `gaussian_elimination` reports no
solution; (b) any system containing a row with exactly zero coefficients and
such a constant classifies as NoSolution regardless of its other rows,
because that row passes through both elimination passes completely
unchanged. -/
theorem C3_no_solution_detection :
    (∀ S : System,
        (∃ p ∈ (computeRref S).planes, pivotIdx p = none ∧ round9zero p.const = false) →
        gaussianElimination S = .noSolution) ∧
    (∀ (S : System) (c : ℚ), round9zero c = false →
        (∃ i < S.planes.length, ZeroCoeffRow (sysRow S i) ∧ (sysRow S i).const = c) →
        gaussianElimination S = .noSolution) := by
  constructor
  · intro S h
    have hni : noIntersections (computeRref S) = true := by
      unfold noIntersections
      rw [List.any_eq_true]
      rcases h with ⟨p, hp, h1, h2⟩
      exact ⟨p, hp, by rw [h1, h2]; rfl⟩
    simp only [gaussianElimination, hni, if_true]
  · intro S c hc h
    have hge := computeRref_hasZeroRow c S h
    have hni := noIntersections_of_zeroRow _ c hc hge
    simp only [gaussianElimination, hni, if_true]

/-- A concrete system containing the inconsistent row `[0,0,0|5]`. -/
def c3Sys : System := ⟨[⟨[0, 0, 0], 5⟩, ⟨[1, 0, 0], 1⟩], 3⟩

/-- Witness for C3 at the concrete system `c3Sys`. -/
theorem C3_witness : gaussianElimination c3Sys = .noSolution :=
  C3_no_solution_detection.2 c3Sys 5 (by with_unfolding_all decide) (by decide)


/-- Witness for the amended C4 rule at a concrete input. -/
theorem C4_witness : round9zero (0 : ℚ) = true :=
  C4_amended_pivot_rule.2.2.1 0 (by with_unfolding_all decide)

/-- Witness for the amended C9 rule at a concrete input. -/
theorem C9_witness : ∃ v, mkVector [(1 : ℚ), 2] = .ok v :=
  (C9_amended_construction.1 [(1 : ℚ), 2]).mpr (by decide)

/-- Witness for C10 at a concrete pair of rows. -/
theorem C10_witness : planeEq ⟨[1, 2], 3⟩ ⟨[1, 2], 3⟩ = true :=
  (C10_planeEq_exact.1 ⟨[1, 2], 3⟩ ⟨[1, 2], 3⟩).mpr (by decide)


/-! ## C7: row operations preserve the exact solution set -/

/-- Dot product of a coefficient list with an assignment (index-based). -/
def dotList (a x : List ℚ) : ℚ :=
  ∑ j ∈ Finset.range a.length, a.getD j 0 * x.getD j 0

/-- The assignment `x` satisfies the equation `coeffs · x = const` of `p`. -/
def rowHolds (x : List ℚ) (p : Plane) : Prop := dotList p.coeffs x = p.const

instance (x : List ℚ) (p : Plane) : Decidable (rowHolds x p) :=
  decidable_of_iff (dotList p.coeffs x = p.const) Iff.rfl

/-- `x` solves every equation of the system. -/
def isSolution (x : List ℚ) (S : System) : Prop :=
  ∀ i < S.planes.length, rowHolds x (sysRow S i)

instance (x : List ℚ) (S : System) : Decidable (isSolution x S) :=
  decidable_of_iff (∀ i < S.planes.length, rowHolds x (sysRow S i)) Iff.rfl

/-- The three exposed row primitives as data, for quantifying over finite
sequences of operations. -/
inductive RowOp where
  | swap : ℕ → ℕ → RowOp
  | scale : ℚ → ℕ → RowOp
  | addMul : ℚ → ℕ → ℕ → RowOp
deriving DecidableEq

/-- Run one primitive: `swap_rows`, `multiply_coefficient_and_row`,
`add_multiple_times_row_to_row`. -/
def applyOp (S : System) : RowOp → System
  | .swap i j => swapRows S i j
  | .scale k i => multiplyRow S k i
  | .addMul k src dst => addMulRow S k src dst

/-- Run a finite sequence of primitives in order. -/
def applyOps (S : System) (ops : List RowOp) : System := ops.foldl applyOp S

/-- Well-formedness of one operation on a system with `n` rows: in-range
indices, a nonzero scalar for scaling, and distinct source/target rows for
the combining step. -/
def WfOp (n : ℕ) : RowOp → Prop
  | .swap i j => i < n ∧ j < n
  | .scale k i => k ≠ 0 ∧ i < n
  | .addMul _ src dst => src < n ∧ dst < n ∧ src ≠ dst

instance (n : ℕ) : (op : RowOp) → Decidable (WfOp n op)
  | .swap _ _ => inferInstanceAs (Decidable (_ ∧ _))
  | .scale _ _ => inferInstanceAs (Decidable (_ ∧ _))
  | .addMul _ _ _ => inferInstanceAs (Decidable (_ ∧ _ ∧ _))

/-- Construction invariant of `LinearSystem`: every row has the system's
dimension. -/
def ValidSystem (S : System) : Prop := ∀ p ∈ S.planes, p.coeffs.length = S.dimension

instance (S : System) : Decidable (ValidSystem S) :=
  decidable_of_iff (∀ p ∈ S.planes, p.coeffs.length = S.dimension) Iff.rfl

theorem sysRow_mem (S : System) (i : ℕ) (h : i < S.planes.length) :
    sysRow S i ∈ S.planes := by
  unfold sysRow
  rw [List.getD_eq_getElem _ _ h]
  exact List.getElem_mem h

theorem dotList_scaleMul (k : ℚ) (p : Plane) (x : List ℚ) :
    dotList (scaleMul k p).coeffs x = k * dotList p.coeffs x := by
  unfold dotList scaleMul
  rw [Finset.mul_sum]
  simp only [List.length_map]
  refine Finset.sum_congr rfl ?_
  intro j hj
  have hjl : j < p.coeffs.length := List.mem_range.mp hj
  rw [List.getD_eq_getElem _ _ (by simpa using hjl), List.getElem_map,
    List.getD_eq_getElem _ _ hjl]
  ring

theorem dotList_addScaled (k : ℚ) (p q : Plane) (x : List ℚ)
    (hlen : p.coeffs.length = q.coeffs.length) :
    dotList (addScaled k p q).coeffs x =
      dotList q.coeffs x + k * dotList p.coeffs x := by
  unfold dotList addScaled
  simp only [List.length_map, List.length_range]
  rw [Finset.mul_sum, hlen, ← Finset.sum_add_distrib]
  refine Finset.sum_congr rfl ?_
  intro j hj
  have hjq : j < q.coeffs.length := List.mem_range.mp hj
  have hjl : j < p.coeffs.length := hlen ▸ hjq
  rw [List.getD_eq_getElem _ _ (by simpa using hjq), List.getElem_map,
    List.getElem_range]
  show (rowCoeff q j + k * rowCoeff p j) * x.getD j 0 = _
  unfold rowCoeff
  rw [List.getD_eq_getElem _ _ hjq, List.getD_eq_getElem _ _ hjl]
  ring

theorem sysRow_set (S : System) (v : Plane) (m j : ℕ) (hm : m < S.planes.length) :
    sysRow { S with planes := S.planes.set m v } j =
      if j = m then v else sysRow S j := by
  unfold sysRow
  by_cases h : j = m
  · subst h
    rw [if_pos rfl]
    exact getD_set_self_lt _ _ _ _ hm
  · rw [if_neg h]
    exact getD_set_ne _ _ _ _ _ (fun e => h e.symm)

theorem swapRows_solution_iff (S : System) (a b : ℕ) (x : List ℚ)
    (ha : a < S.planes.length) (hb : b < S.planes.length) :
    (isSolution x (swapRows S a b) ↔ isSolution x S) := by
  have hlen : (swapRows S a b).planes.length = S.planes.length := length_swapRows S a b
  have hrow : ∀ j, j < S.planes.length →
      sysRow (swapRows S a b) j =
        if j = b then sysRow S a else if j = a then sysRow S b else sysRow S j := by
    intro j hj
    show ((S.planes.set a (sysRow S b)).set b (sysRow S a)).getD j ⟨[], 0⟩ = _
    by_cases hjb : j = b
    · rw [if_pos hjb, hjb, getD_set_self_lt _ _ _ _ (by simpa using hb)]
    · rw [if_neg hjb, getD_set_ne _ _ _ _ _ (fun e => hjb e.symm)]
      by_cases hja : j = a
      · rw [if_pos hja, hja, getD_set_self_lt _ _ _ _ ha]
      · rw [if_neg hja, getD_set_ne _ _ _ _ _ (fun e => hja e.symm)]
        rfl
  constructor
  · intro hsol i hi
    by_cases hia : i = a
    · have h2 := hsol b (by rw [hlen]; exact hb)
      rw [hrow b hb, if_pos rfl] at h2
      rw [hia]
      exact h2
    · by_cases hib : i = b
      · have h2 := hsol a (by rw [hlen]; exact ha)
        rw [hrow a ha] at h2
        by_cases hab : a = b
        · rw [if_pos hab] at h2
          rw [hib, ← hab]
          exact h2
        · rw [if_neg hab, if_pos rfl] at h2
          rw [hib]
          exact h2
      · have h2 := hsol i (by rw [hlen]; exact hi)
        rw [hrow i hi, if_neg hib, if_neg hia] at h2
        exact h2
  · intro hsol j hj
    rw [hlen] at hj
    rw [hrow j hj]
    by_cases hjb : j = b
    · rw [if_pos hjb]
      exact hsol a ha
    · rw [if_neg hjb]
      by_cases hja : j = a
      · rw [if_pos hja]
        exact hsol b hb
      · rw [if_neg hja]
        exact hsol j hj

theorem multiplyRow_solution_iff (S : System) (k : ℚ) (m : ℕ) (x : List ℚ)
    (hk : k ≠ 0) (hm : m < S.planes.length) :
    (isSolution x (multiplyRow S k m) ↔ isSolution x S) := by
  have hlen : (multiplyRow S k m).planes.length = S.planes.length :=
    length_multiplyRow S k m
  have hrow : ∀ j, sysRow (multiplyRow S k m) j =
      if j = m then scaleMul k (sysRow S m) else sysRow S j := by
    intro j
    exact sysRow_set S _ m j hm
  have hscaled : rowHolds x (scaleMul k (sysRow S m)) ↔ rowHolds x (sysRow S m) := by
    unfold rowHolds
    rw [dotList_scaleMul,
      show (scaleMul k (sysRow S m)).const = k * (sysRow S m).const from rfl]
    constructor
    · intro h
      exact mul_left_cancel₀ hk h
    · intro h
      rw [h]
  constructor
  · intro hsol i hi
    by_cases him : i = m
    · subst him
      have := hsol i (by rw [hlen]; exact hi)
      rw [hrow i, if_pos rfl] at this
      exact hscaled.mp this
    · have := hsol i (by rw [hlen]; exact hi)
      rw [hrow i, if_neg him] at this
      exact this
  · intro hsol j hj
    rw [hlen] at hj
    rw [hrow j]
    by_cases hjm : j = m
    · rw [if_pos hjm]
      subst hjm
      exact hscaled.mpr (hsol j hj)
    · rw [if_neg hjm]
      exact hsol j hj

theorem addMulRow_solution_iff (S : System) (k : ℚ) (src dst : ℕ) (x : List ℚ)
    (hs : src < S.planes.length) (hd : dst < S.planes.length) (hne : src ≠ dst)
    (hv : ValidSystem S) :
    (isSolution x (addMulRow S k src dst) ↔ isSolution x S) := by
  have hlen : (addMulRow S k src dst).planes.length = S.planes.length :=
    length_addMulRow S k src dst
  have hrow : ∀ j, sysRow (addMulRow S k src dst) j =
      if j = dst then addScaled k (sysRow S src) (sysRow S dst) else sysRow S j := by
    intro j
    exact sysRow_set S _ dst j hd
  have hl : (sysRow S src).coeffs.length = (sysRow S dst).coeffs.length := by
    rw [hv _ (sysRow_mem S src hs), hv _ (sysRow_mem S dst hd)]
  have hdot := dotList_addScaled k (sysRow S src) (sysRow S dst) x hl
  constructor
  · intro hsol i hi
    by_cases hid : i = dst
    · subst hid
      have hnew := hsol i (by rw [hlen]; exact hi)
      rw [hrow i, if_pos rfl] at hnew
      have hsrc := hsol src (by rw [hlen]; exact hs)
      rw [hrow src, if_neg hne] at hsrc
      unfold rowHolds at hnew hsrc ⊢
      rw [show (addScaled k (sysRow S src) (sysRow S i)).const
          = (sysRow S i).const + k * (sysRow S src).const from rfl, hdot, hsrc] at hnew
      linarith
    · have := hsol i (by rw [hlen]; exact hi)
      rw [hrow i, if_neg hid] at this
      exact this
  · intro hsol j hj
    rw [hlen] at hj
    rw [hrow j]
    by_cases hjd : j = dst
    · rw [if_pos hjd]
      subst hjd
      have hdst := hsol j hj
      have hsrc := hsol src hs
      unfold rowHolds at hdst hsrc ⊢
      rw [show (addScaled k (sysRow S src) (sysRow S j)).const
          = (sysRow S j).const + k * (sysRow S src).const from rfl, hdot, hsrc, hdst]
    · rw [if_neg hjd]
      exact hsol j hj

theorem validSystem_applyOp (S : System) (op : RowOp)
    (hw : WfOp S.planes.length op) (hv : ValidSystem S) :
    ValidSystem (applyOp S op) := by
  cases op with
  | swap a b =>
    intro p hp
    rcases List.mem_or_eq_of_mem_set hp with hp2 | rfl
    · rcases List.mem_or_eq_of_mem_set hp2 with hp3 | rfl
      · exact hv p hp3
      · exact hv _ (sysRow_mem S b hw.2)
    · exact hv _ (sysRow_mem S a hw.1)
  | scale k m =>
    intro p hp
    rcases List.mem_or_eq_of_mem_set hp with hp2 | rfl
    · exact hv p hp2
    · show (scaleMul k (sysRow S m)).coeffs.length = S.dimension
      unfold scaleMul
      rw [List.length_map]
      exact hv _ (sysRow_mem S m hw.2)
  | addMul k src dst =>
    intro p hp
    rcases List.mem_or_eq_of_mem_set hp with hp2 | rfl
    · exact hv p hp2
    · show (addScaled k (sysRow S src) (sysRow S dst)).coeffs.length = S.dimension
      unfold addScaled
      rw [List.length_map, List.length_range]
      exact hv _ (sysRow_mem S dst hw.2.1)

theorem length_applyOp (S : System) (op : RowOp) :
    (applyOp S op).planes.length = S.planes.length := by
  cases op with
  | swap a b => exact length_swapRows S a b
  | scale k m => exact length_multiplyRow S k m
  | addMul k src dst => exact length_addMulRow S k src dst

theorem applyOp_solution_iff (S : System) (op : RowOp) (x : List ℚ)
    (hv : ValidSystem S) (hw : WfOp S.planes.length op) :
    (isSolution x (applyOp S op) ↔ isSolution x S) := by
  cases op with
  | swap a b => exact swapRows_solution_iff S a b x hw.1 hw.2
  | scale k m => exact multiplyRow_solution_iff S k m x hw.1 hw.2
  | addMul k src dst =>
    exact addMulRow_solution_iff S k src dst x hw.1 hw.2.1 hw.2.2 hv

/-- C7 amended: any finite sequence of well-formed swap, nonzero-scale and
add-scaled-row operations preserves the exact solution set of the system
(the counterexample shows the classification itself is not preserved). -/
theorem C7_amended_solution_set (S : System) (ops : List RowOp) (x : List ℚ)
    (hv : ValidSystem S) (hw : ∀ op ∈ ops, WfOp S.planes.length op) :
    isSolution x (applyOps S ops) ↔ isSolution x S := by
  induction ops generalizing S with
  | nil => exact Iff.rfl
  | cons op ops ih =>
    have h1 := applyOp_solution_iff S op x hv (hw op (List.mem_cons_self _ _))
    have h2 := ih (applyOp S op) (validSystem_applyOp S op
      (hw op (List.mem_cons_self _ _)) hv)
      (fun o ho => by
        rw [length_applyOp]
        exact hw o (List.mem_cons_of_mem _ ho))
    exact h2.trans h1

/-- Witness for the amended C7 at a concrete system, operation sequence and
assignment. -/
theorem C7_witness :
    isSolution [1, 1] (applyOps c7Sys [.swap 0 1, .addMul 2 0 1]) ↔
      isSolution [1, 1] c7Sys :=
  C7_amended_solution_set c7Sys [.swap 0 1, .addMul 2 0 1] [1, 1]
    (by decide) (by decide)


/-! ## Systems in exact reduced row-echelon shape -/

theorem round9zero_zero : round9zero 0 = true := by with_unfolding_all decide

theorem round9zero_one : round9zero 1 = false := by with_unfolding_all decide

theorem isNearZero_zero : isNearZero 0 = true := by with_unfolding_all decide

theorem isNearZero_one : isNearZero 1 = false := by with_unfolding_all decide

/-- Exact reduced row-echelon shape with `k` pivot rows listed in `pvts`
followed by exactly-zero rows: every row has the system's dimension; pivot
columns are in range, strictly increasing, carry coefficient exactly `1` on
their own row and exactly `0` on every other row; pivot rows are exactly
zero left of their pivot; rows from `k` on are exactly zero. -/
def IsRREFShape (S : System) (pvts : List ℕ) (k : ℕ) : Prop :=
  k ≤ S.planes.length ∧
  pvts.length = k ∧
  (∀ p ∈ S.planes, p.coeffs.length = S.dimension) ∧
  (∀ i < k, pvts.getD i 0 < S.dimension) ∧
  (∀ i < k, ∀ j < k, i < j → pvts.getD i 0 < pvts.getD j 0) ∧
  (∀ i < k, rowCoeff (sysRow S i) (pvts.getD i 0) = 1) ∧
  (∀ i < k, ∀ c < pvts.getD i 0, rowCoeff (sysRow S i) c = 0) ∧
  (∀ i < k, ∀ j < S.planes.length, j ≠ i → rowCoeff (sysRow S j) (pvts.getD i 0) = 0) ∧
  (∀ i < S.planes.length, k ≤ i → ZeroCoeffRow (sysRow S i))

instance (S : System) (pvts : List ℕ) (k : ℕ) : Decidable (IsRREFShape S pvts k) := by
  unfold IsRREFShape
  infer_instance

theorem rowLen_of_shape (S : System) (pvts : List ℕ) (k : ℕ)
    (h : IsRREFShape S pvts k) (i : ℕ) (hi : i < S.planes.length) :
    (sysRow S i).coeffs.length = S.dimension :=
  h.2.2.1 _ (sysRow_mem S i hi)

/-- On a shaped system the recorded pivot of each pivot row is its listed
pivot column. -/
theorem pivotIdx_of_shape (S : System) (pvts : List ℕ) (k : ℕ)
    (h : IsRREFShape S pvts k) (i : ℕ) (hik : i < k) :
    pivotIdx (sysRow S i) = some (pvts.getD i 0) := by
  have hi : i < S.planes.length := lt_of_lt_of_le hik h.1
  rw [show pivotIdx (sysRow S i) = firstNonzeroIndex (sysRow S i).coeffs from rfl,
    firstNonzeroIndex_some_iff]
  refine ⟨?_, ?_, ?_⟩
  · rw [rowLen_of_shape S pvts k h i hi]
    exact h.2.2.2.1 i hik
  · show round9zero (rowCoeff (sysRow S i) (pvts.getD i 0)) = false
    rw [h.2.2.2.2.2.1 i hik]
    exact round9zero_one
  · intro j hj
    show round9zero (rowCoeff (sysRow S i) j) = true
    rw [h.2.2.2.2.2.2.1 i hik j hj]
    exact round9zero_zero

theorem pivotIdx_none_of_shape (S : System) (pvts : List ℕ) (k : ℕ)
    (h : IsRREFShape S pvts k) (i : ℕ) (hi : i < S.planes.length) (hik : k ≤ i) :
    pivotIdx (sysRow S i) = none :=
  zeroCoeff_pivotIdx _ (h.2.2.2.2.2.2.2.2 i hi hik)

/-- Any row of a shaped system is exactly zero at any pivot row's pivot
column except on that pivot row itself, and pivot rows are exactly zero
before their pivot; this bundles the two zero clauses with the zero rows. -/
theorem coeff_zero_of_shape (S : System) (pvts : List ℕ) (k : ℕ)
    (h : IsRREFShape S pvts k) (i : ℕ) (hik : i < k) (j : ℕ)
    (hj : j < S.planes.length) (hne : j ≠ i) :
    rowCoeff (sysRow S j) (pvts.getD i 0) = 0 :=
  h.2.2.2.2.2.2.2.1 i hik j hj hne

/-! ### Identity behaviour of the elimination passes on shaped systems -/

theorem set_planes_eq_self (S : System) : { S with planes := S.planes } = S := rfl

theorem addMulRow_zero (S : System) (src dst : ℕ) : addMulRow S 0 src dst = S := by
  unfold addMulRow
  rw [addScaled_zero]
  rcases Nat.lt_or_ge dst S.planes.length with h1 | h1
  · have : sysRow S dst = S.planes[dst] := by
      unfold sysRow
      exact List.getD_eq_getElem _ _ h1
    rw [this, set_self_of_getElem _ _ h1]
  · rw [List.set_eq_of_length_le h1]

theorem multiplyRow_one (S : System) (i : ℕ) : multiplyRow S 1 i = S := by
  unfold multiplyRow
  rw [scaleMul_one]
  rcases Nat.lt_or_ge i S.planes.length with h1 | h1
  · have : sysRow S i = S.planes[i] := by
      unfold sysRow
      exact List.getD_eq_getElem _ _ h1
    rw [this, set_self_of_getElem _ _ h1]
  · rw [List.set_eq_of_length_le h1]

theorem findSwap_none (S : System) (col : ℕ) :
    ∀ ks : List ℕ, (∀ kk ∈ ks, isNearZero (rowCoeff (sysRow S kk) col) = true) →
      findSwap S col ks = none := by
  intro ks
  induction ks with
  | nil => intro _; rfl
  | cons a ks ih =>
    intro hall
    unfold findSwap
    rw [if_pos (hall a (List.mem_cons_self _ _))]
    exact ih (fun kk hk => hall kk (List.mem_cons_of_mem _ hk))

theorem foldDiv_id (beta : ℚ) (row col : ℕ) :
    ∀ (ks : List ℕ) (S : System),
      (∀ kk ∈ ks, rowCoeff (sysRow S kk) col = 0) →
      ks.foldl (fun sys k => addMulRow sys (-(rowCoeff (sysRow sys k) col) / beta) row k) S
        = S := by
  intro ks
  induction ks with
  | nil => intro S _; rfl
  | cons a ks ih =>
    intro S hall
    rw [List.foldl_cons, hall a (List.mem_cons_self _ _)]
    have hz : -(0 : ℚ) / beta = 0 := by
      rw [neg_zero, zero_div]
    rw [hz, addMulRow_zero]
    exact ih S (fun kk hk => hall kk (List.mem_cons_of_mem _ hk))

theorem foldNeg_id (row col : ℕ) :
    ∀ (ks : List ℕ) (S : System),
      (∀ kk ∈ ks, rowCoeff (sysRow S kk) col = 0) →
      ks.foldl (fun sys k => addMulRow sys (-(rowCoeff (sysRow sys k) col)) row k) S
        = S := by
  intro ks
  induction ks with
  | nil => intro S _; rfl
  | cons a ks ih =>
    intro S hall
    rw [List.foldl_cons, hall a (List.mem_cons_self _ _), neg_zero, addMulRow_zero]
    exact ih S (fun kk hk => hall kk (List.mem_cons_of_mem _ hk))

theorem clearBelow_id (S : System) (row col : ℕ)
    (h : ∀ kk ∈ List.range' (row + 1) (S.planes.length - (row + 1)),
      rowCoeff (sysRow S kk) col = 0) :
    clearBelow S row col = S := by
  unfold clearBelow
  exact foldDiv_id _ row col _ S h

theorem clearAbove_id (S : System) (row col : ℕ)
    (h : ∀ kk ∈ (List.range row).reverse, rowCoeff (sysRow S kk) col = 0) :
    clearAbove S row col = S := by
  unfold clearAbove
  exact foldNeg_id row col _ S h

/-- Scanning columns that are all skippable (near-zero coefficient and no
usable swap below) leaves the system unchanged. -/
theorem triCols_skip (S : System) (row : ℕ) :
    ∀ cs : List ℕ,
      (∀ c ∈ cs, isNearZero (rowCoeff (sysRow S row) c) = true ∧
        ∀ kk ∈ List.range' (row + 1) (S.planes.length - (row + 1)),
          isNearZero (rowCoeff (sysRow S kk) c) = true) →
      triCols S row cs = S := by
  intro cs
  induction cs with
  | nil => intro _; rfl
  | cons c cs ih =>
    intro hall
    unfold triCols
    rw [if_pos (hall c (List.mem_cons_self _ _)).1]
    have hsw : swapRowBelow S row c = none := by
      unfold swapRowBelow
      rw [findSwap_none S c _ (hall c (List.mem_cons_self _ _)).2]
      rfl
    rw [hsw]
    exact ih (fun c2 hc2 => hall c2 (List.mem_cons_of_mem _ hc2))

/-- Scanning skippable columns followed by a usable pivot column performs
exactly the clearing step at that column. -/
theorem triCols_break (S : System) (row pc : ℕ)
    (hpc : isNearZero (rowCoeff (sysRow S row) pc) = false) :
    ∀ cs : List ℕ,
      (∀ c ∈ cs, isNearZero (rowCoeff (sysRow S row) c) = true ∧
        ∀ kk ∈ List.range' (row + 1) (S.planes.length - (row + 1)),
          isNearZero (rowCoeff (sysRow S kk) c) = true) →
      ∀ rest : List ℕ, triCols S row (cs ++ pc :: rest) = clearBelow S row pc := by
  intro cs
  induction cs with
  | nil =>
    intro _ rest
    show triCols S row (pc :: rest) = clearBelow S row pc
    unfold triCols
    rw [if_neg (by rw [hpc]; exact Bool.false_ne_true)]
  | cons c cs ih =>
    intro hall rest
    show triCols S row (c :: (cs ++ pc :: rest)) = clearBelow S row pc
    unfold triCols
    rw [if_pos (hall c (List.mem_cons_self _ _)).1]
    have hsw : swapRowBelow S row c = none := by
      unfold swapRowBelow
      rw [findSwap_none S c _ (hall c (List.mem_cons_self _ _)).2]
      rfl
    rw [hsw]
    exact ih (fun c2 hc2 => hall c2 (List.mem_cons_of_mem _ hc2)) rest

theorem foldl_fix {α : Type} (f : System → α → System) :
    ∀ (ks : List α) (S : System), (∀ a ∈ ks, f S a = S) → ks.foldl f S = S := by
  intro ks
  induction ks with
  | nil => intro S _; rfl
  | cons a ks ih =>
    intro S h
    rw [List.foldl_cons, h a (List.mem_cons_self _ _)]
    exact ih S (fun a2 ha2 => h a2 (List.mem_cons_of_mem _ ha2))

/-- Every coefficient of a shaped system lying in a column left of a pivot
row's pivot, on any row at or below that pivot row, is exactly zero. -/
theorem coeff_left_zero_of_shape (S : System) (pvts : List ℕ) (k : ℕ)
    (h : IsRREFShape S pvts k) (r : ℕ) (hrk : r < k) (c : ℕ)
    (hc : c < pvts.getD r 0) (j : ℕ) (hj : j < S.planes.length) (hrj : r ≤ j) :
    rowCoeff (sysRow S j) c = 0 := by
  by_cases hjk : j < k
  · have hcj : c < pvts.getD j 0 := by
      rcases Nat.eq_or_lt_of_le hrj with rfl | hlt
      · exact hc
      · exact lt_trans hc (h.2.2.2.2.1 r hrk j hjk hlt)
    exact h.2.2.2.2.2.2.1 j hjk c hcj
  · exact zeroCoeff_rowCoeff _ (h.2.2.2.2.2.2.2.2 j hj (Nat.le_of_not_lt hjk)) c

/-- On a shaped system every single row scan of `compute_triangular_form`
is the identity. -/
theorem triCols_fix_of_shape (S : System) (pvts : List ℕ) (k : ℕ)
    (h : IsRREFShape S pvts k) (r : ℕ) (hr : r < S.planes.length) :
    triCols S r (List.range S.dimension) = S := by
  by_cases hrk : r < k
  · -- pivot row: skip the columns left of the pivot, then clear (a no-op)
    set pc := pvts.getD r 0 with hpc
    have hpcd : pc < S.dimension := h.2.2.2.1 r hrk
    have hsplit : List.range S.dimension
        = List.range pc ++ pc :: List.range' (pc + 1) (S.dimension - (pc + 1)) := by
      rw [List.range_eq_range']
      have h1 : List.range' 0 pc ++ List.range' pc (S.dimension - pc) =
          List.range' 0 S.dimension := by
        have e := List.range'_append 0 pc (S.dimension - pc) 1
        simp only [Nat.zero_add, Nat.one_mul] at e
        rw [Nat.sub_add_cancel (Nat.le_of_lt hpcd)] at e
        exact e
      rw [← h1, List.range_eq_range']
      have h2 : S.dimension - pc = (S.dimension - (pc + 1)) + 1 := by omega
      rw [h2, List.range'_succ]
    rw [hsplit]
    rw [triCols_break S r pc ?_ (List.range pc) ?_ _]
    · apply clearBelow_id
      intro kk hkk
      rcases List.mem_range'_1.mp hkk with ⟨h1, h2⟩
      exact coeff_zero_of_shape S pvts k h r hrk kk (by omega) (by omega)
    · rw [h.2.2.2.2.2.1 r hrk]
      exact isNearZero_one
    · intro c hc
      have hclt : c < pc := List.mem_range.mp hc
      constructor
      · rw [h.2.2.2.2.2.2.1 r hrk c hclt]
        exact isNearZero_zero
      · intro kk hkk
        rcases List.mem_range'_1.mp hkk with ⟨h1, h2⟩
        rw [coeff_left_zero_of_shape S pvts k h r hrk c hclt kk (by omega) (by omega)]
        exact isNearZero_zero
  · -- zero row: every column is skipped
    apply triCols_skip
    intro c hc
    constructor
    · rw [zeroCoeff_rowCoeff _ (h.2.2.2.2.2.2.2.2 r hr (Nat.le_of_not_lt hrk)) c]
      exact isNearZero_zero
    · intro kk hkk
      rcases List.mem_range'_1.mp hkk with ⟨h1, h2⟩
      have hkkk : k ≤ kk := by omega
      rw [zeroCoeff_rowCoeff _ (h.2.2.2.2.2.2.2.2 kk (by omega) hkkk) c]
      exact isNearZero_zero

theorem computeTriangularForm_fix_of_shape (S : System) (pvts : List ℕ) (k : ℕ)
    (h : IsRREFShape S pvts k) : computeTriangularForm S = S := by
  unfold computeTriangularForm
  apply foldl_fix
  intro r hr
  exact triCols_fix_of_shape S pvts k h r (List.mem_range.mp hr)

theorem pivotList_getD_of_shape (S : System) (pvts : List ℕ) (k : ℕ)
    (h : IsRREFShape S pvts k) (i : ℕ) :
    (pivotList S).getD i none =
      if hi : i < S.planes.length then
        (if i < k then some (pvts.getD i 0) else none)
      else none := by
  by_cases hi : i < S.planes.length
  · rw [dif_pos hi]
    unfold pivotList
    rw [List.getD_eq_getElem _ _ (by simpa using hi), List.getElem_map]
    have hrow : S.planes[i] = sysRow S i := by
      unfold sysRow
      rw [List.getD_eq_getElem _ _ hi]
    rw [hrow]
    by_cases hik : i < k
    · rw [if_pos hik]
      exact pivotIdx_of_shape S pvts k h i hik
    · rw [if_neg hik]
      exact pivotIdx_none_of_shape S pvts k h i hi (Nat.le_of_not_lt hik)
  · rw [dif_neg hi]
    unfold pivotList
    exact List.getD_eq_default _ _ (by simpa using Nat.le_of_not_lt hi)

theorem rrefLoop_fix (pivots : List (Option ℕ)) (S : System)
    (hstep : ∀ i c, pivots.getD i none = some c →
      clearAbove (scaleRow S i c) i c = S) :
    ∀ idxs : List ℕ, rrefLoop pivots S idxs = S := by
  intro idxs
  induction idxs with
  | nil => rfl
  | cons i rest ih =>
    unfold rrefLoop
    cases hpi : pivots.getD i none with
    | none => exact ih
    | some c =>
      show rrefLoop pivots (clearAbove (scaleRow S i c) i c) rest = S
      rw [hstep i c hpi]
      exact ih

/-- `compute_rref` is the identity on a system already in exact RREF shape:
triangularization never swaps or changes a row, every scaling multiplier is
`1/1 = 1`, and every upward-clearing multiplier is `-0 = 0`. -/
theorem computeRref_fix_of_shape (S : System) (pvts : List ℕ) (k : ℕ)
    (h : IsRREFShape S pvts k) : computeRref S = S := by
  unfold computeRref
  rw [computeTriangularForm_fix_of_shape S pvts k h]
  apply rrefLoop_fix
  intro i c hpi
  rw [pivotList_getD_of_shape S pvts k h i] at hpi
  by_cases hi : i < S.planes.length
  · rw [dif_pos hi] at hpi
    by_cases hik : i < k
    · rw [if_pos hik] at hpi
      have hc : c = pvts.getD i 0 := (Option.some_inj.mp hpi).symm
      subst hc
      have hscale : scaleRow S i (pvts.getD i 0) = S := by
        unfold scaleRow
        rw [h.2.2.2.2.2.1 i hik]
        norm_num
        exact multiplyRow_one S i
      rw [hscale]
      apply clearAbove_id
      intro kk hkk
      have hkr : kk < i := by
        have := List.mem_reverse.mp hkk
        exact List.mem_range.mp this
      exact coeff_zero_of_shape S pvts k h i hik kk (by omega) (by omega)
    · rw [if_neg hik] at hpi
      cases hpi
  · rw [dif_neg hi] at hpi
    cases hpi

/-- C8 amended: whenever the output of `compute_rref` lands in exact RREF
shape (which every well-behaved input produces), applying `compute_rref`
again returns it unchanged; the counterexample shows idempotence fails in
general because sub-threshold coefficients can be amplified by the pivot
rescaling. -/
theorem C8_amended_idempotent (S : System) (pvts : List ℕ) (k : ℕ)
    (h : IsRREFShape (computeRref S) pvts k) :
    computeRref (computeRref S) = computeRref S :=
  computeRref_fix_of_shape (computeRref S) pvts k h

/-- A concrete already-reduced system. -/
def c8Sys : System := ⟨[⟨[1, 0], 1⟩, ⟨[0, 1], 2⟩], 2⟩

/-- Witness for the amended C8 at a concrete input. -/
theorem C8_witness : computeRref (computeRref c8Sys) = computeRref c8Sys :=
  C8_amended_idempotent c8Sys [0, 1] 2 (by with_unfolding_all decide)


/-! ## C1: classification on an RREF system with trivial rows removed -/

theorem pvts_lower (pvts : List ℕ) (k : ℕ)
    (hinc : ∀ i < k, ∀ j < k, i < j → pvts.getD i 0 < pvts.getD j 0) :
    ∀ i < k, i ≤ pvts.getD i 0 := by
  intro i
  induction i with
  | zero => intro _; exact Nat.zero_le _
  | succ n ih =>
    intro hn
    have h1 := ih (lt_trans (Nat.lt_succ_self n) hn)
    have h2 := hinc n (lt_trans (Nat.lt_succ_self n) hn) (n + 1) hn (Nat.lt_succ_self n)
    omega

theorem pvts_gap (pvts : List ℕ) (k : ℕ)
    (hinc : ∀ i < k, ∀ j < k, i < j → pvts.getD i 0 < pvts.getD j 0) :
    ∀ (d i : ℕ), i + d < k → pvts.getD i 0 + d ≤ pvts.getD (i + d) 0 := by
  intro d
  induction d with
  | zero => intro i _; simp
  | succ n ih =>
    intro i hk
    have h1 := ih i (by omega)
    have h2 := hinc (i + n) (by omega) (i + n + 1) (by omega) (by omega)
    have h3 : i + (n + 1) = i + n + 1 := by omega
    rw [h3]
    omega

theorem pivotCount_le_dim (S : System) (pvts : List ℕ) (k : ℕ)
    (h : IsRREFShape S pvts k) : k ≤ S.dimension := by
  cases hk : k with
  | zero => exact Nat.zero_le _
  | succ m =>
    have h1 := pvts_lower pvts k (fun i hi j hj => h.2.2.2.2.1 i hi j hj) m (by omega)
    have h2 := h.2.2.2.1 m (by omega)
    omega

theorem pvts_eq_id (S : System) (pvts : List ℕ) (k : ℕ)
    (h : IsRREFShape S pvts k) (hkd : k = S.dimension) :
    ∀ i < k, pvts.getD i 0 = i := by
  intro i hik
  have hlow := pvts_lower pvts k (fun i hi j hj => h.2.2.2.2.1 i hi j hj) i hik
  have hgap := pvts_gap pvts k (fun i hi j hj => h.2.2.2.2.1 i hi j hj)
    (k - 1 - i) i (by omega)
  have htop : pvts.getD (i + (k - 1 - i)) 0 < S.dimension := by
    exact h.2.2.2.1 _ (by omega)
  omega

theorem noIntersections_false_of_shape (S : System) (pvts : List ℕ)
    (h : IsRREFShape S pvts S.planes.length) :
    noIntersections S = false := by
  unfold noIntersections
  rw [List.any_eq_false]
  intro p hp
  rcases List.mem_iff_getElem.mp hp with ⟨i, hi, rfl⟩
  have hrw : S.planes[i] = sysRow S i := by
    unfold sysRow
    rw [List.getD_eq_getElem _ _ hi]
  rw [hrw, pivotIdx_of_shape S pvts S.planes.length h i hi]
  simp

theorem dropZeroRows_id_of_shape (S : System) (pvts : List ℕ)
    (h : IsRREFShape S pvts S.planes.length) :
    dropZeroRows S = S := by
  unfold dropZeroRows
  rw [List.filter_eq_self.mpr]
  intro p hp
  rcases List.mem_iff_getElem.mp hp with ⟨i, hi, rfl⟩
  have hrw : S.planes[i] = sysRow S i := by
    unfold sysRow
    rw [List.getD_eq_getElem _ _ hi]
  rw [hrw, List.any_eq_true]
  have hlen : pvts.getD i 0 < (sysRow S i).coeffs.length := by
    rw [rowLen_of_shape S pvts S.planes.length h i hi]
    exact h.2.2.2.1 i hi
  refine ⟨(sysRow S i).coeffs[pvts.getD i 0], List.getElem_mem hlen, ?_⟩
  have : (sysRow S i).coeffs[pvts.getD i 0] = rowCoeff (sysRow S i) (pvts.getD i 0) := by
    unfold rowCoeff
    rw [List.getD_eq_getElem _ _ hlen]
  rw [this, h.2.2.2.2.2.1 i hi, round9zero_one]
  rfl

theorem list_sum_getD (l : List ℚ) :
    l.sum = ∑ j ∈ Finset.range l.length, l.getD j 0 := by
  induction l with
  | nil => simp
  | cons x xs ih =>
    rw [List.sum_cons, List.length_cons, Finset.sum_range_succ']
    simp only [List.getD_cons_succ, List.getD_cons_zero]
    rw [ih]
    ring

theorem rowSum_one_of_shape (S : System) (pvts : List ℕ)
    (h : IsRREFShape S pvts S.planes.length) (hkd : S.planes.length = S.dimension)
    (i : ℕ) (hi : i < S.planes.length) :
    (sysRow S i).coeffs.sum = 1 := by
  rw [list_sum_getD, rowLen_of_shape S pvts S.planes.length h i hi]
  have hcong : ∀ j ∈ Finset.range S.dimension,
      (sysRow S i).coeffs.getD j 0 = if j = i then (1 : ℚ) else 0 := by
    intro j hj
    have hjd : j < S.dimension := Finset.mem_range.mp hj
    have hjk : j < S.planes.length := by omega
    have hpj : pvts.getD j 0 = j := pvts_eq_id S pvts S.planes.length h hkd j hjk
    by_cases hji : j = i
    · rw [if_pos hji]
      have := h.2.2.2.2.2.1 i hi
      rw [pvts_eq_id S pvts S.planes.length h hkd i hi] at this
      rw [hji]
      exact this
    · rw [if_neg hji]
      have := coeff_zero_of_shape S pvts S.planes.length h j hjk i hi
        (fun e => hji e.symm)
      rw [hpj] at this
      exact this
  rw [Finset.sum_congr rfl hcong, Finset.sum_ite_eq' (Finset.range S.dimension) i
    (fun _ => (1 : ℚ))]
  rw [if_pos (Finset.mem_range.mpr (by omega))]

theorem infiniteAfterDrop_true_of_lt (S : System)
    (hlt : S.planes.length < S.dimension) : infiniteAfterDrop S = true := by
  unfold infiniteAfterDrop
  rw [decide_eq_true hlt]
  rfl

theorem infiniteAfterDrop_false_of_shape (S : System) (pvts : List ℕ)
    (h : IsRREFShape S pvts S.planes.length) (hkd : S.planes.length = S.dimension) :
    infiniteAfterDrop S = false := by
  unfold infiniteAfterDrop
  have h1 : decide (S.planes.length < S.dimension) = false := by
    rw [decide_eq_false]
    omega
  have h2 : S.planes.any (fun p => decide (1 < p.coeffs.sum)) = false := by
    rw [List.any_eq_false]
    intro p hp
    rcases List.mem_iff_getElem.mp hp with ⟨i, hi, rfl⟩
    have hrw : S.planes[i] = sysRow S i := by
      unfold sysRow
      rw [List.getD_eq_getElem _ _ hi]
    rw [hrw, rowSum_one_of_shape S pvts h hkd i hi]
    simp
  rw [h1, h2]
  rfl

/-- C1: on an RREF system with its trivial rows removed (every remaining
row has a pivot), the classification of `gaussian_elimination` is
parametric exactly when some column is never a pivot column, equivalently
when there are fewer (pivot) rows than the dimension; otherwise it is the
unique solution read off as the constant terms in row order, and the pivot
columns coincide with the row order `0..N-1`. -/
theorem C1_classification (S : System) (pvts : List ℕ)
    (h : IsRREFShape S pvts S.planes.length) :
    ((∃ c < S.dimension, ∀ i < S.planes.length, pvts.getD i 0 ≠ c) ↔
        S.planes.length < S.dimension) ∧
    (S.planes.length < S.dimension →
        gaussianElimination S =
          .parametric (getBasepoint S) (getDirectionVectors S)) ∧
    (¬ S.planes.length < S.dimension →
        gaussianElimination S = .unique (S.planes.map Plane.const) ∧
        ∀ i < S.planes.length, pvts.getD i 0 = i) := by
  have hfix : computeRref S = S := computeRref_fix_of_shape S pvts _ h
  have hni : noIntersections S = false := noIntersections_false_of_shape S pvts h
  have hdrop : dropZeroRows S = S := dropZeroRows_id_of_shape S pvts h
  have hle : S.planes.length ≤ S.dimension := pivotCount_le_dim S pvts _ h
  refine ⟨?_, ?_, ?_⟩
  · constructor
    · rintro ⟨c, hc, hfree⟩
      by_contra hnl
      have hkd : S.planes.length = S.dimension := by omega
      exact hfree c (by omega) (pvts_eq_id S pvts S.planes.length h hkd c (by omega))
    · intro hlt
      by_contra hno
      push_neg at hno
      have hsub : Finset.range S.dimension ⊆
          (Finset.range S.planes.length).image (fun i => pvts.getD i 0) := by
        intro c hcmem
        rcases hno c (Finset.mem_range.mp hcmem) with ⟨i, hi, hpi⟩
        exact Finset.mem_image.mpr ⟨i, Finset.mem_range.mpr hi, hpi⟩
      have h1 := Finset.card_le_card hsub
      have h2 := Finset.card_image_le (s := Finset.range S.planes.length)
        (f := fun i => pvts.getD i 0)
      rw [Finset.card_range] at h1
      rw [Finset.card_range] at h2
      omega
  · intro hlt
    have hinf : infiniteAfterDrop S = true := infiniteAfterDrop_true_of_lt S hlt
    simp [gaussianElimination, hfix, hni, hdrop, hinf]
  · intro hnl
    have hkd : S.planes.length = S.dimension := by omega
    have hinf : infiniteAfterDrop S = false :=
      infiniteAfterDrop_false_of_shape S pvts h hkd
    constructor
    · simp [gaussianElimination, hfix, hni, hdrop, hinf]
    · exact pvts_eq_id S pvts S.planes.length h hkd

/-- Witness for C1 at a concrete square system. -/
theorem C1_witness :
    gaussianElimination c8Sys = .unique (c8Sys.planes.map Plane.const) ∧
      ∀ i < c8Sys.planes.length, [0, 1].getD i 0 = i :=
  (C1_classification c8Sys [0, 1] (by with_unfolding_all decide)).2.2 (by decide)


/-! ## C2: the computed basepoint and direction vectors -/

theorem pivotList_length (S : System) : (pivotList S).length = S.planes.length := by
  simp [pivotList]

theorem pivotList_getElem_of_shape (S : System) (pvts : List ℕ)
    (h : IsRREFShape S pvts S.planes.length) (i : ℕ) (hi : i < S.planes.length)
    (him : i < (pivotList S).length) :
    (pivotList S)[i] = some (pvts.getD i 0) := by
  unfold pivotList
  rw [List.getElem_map]
  have hrw : S.planes[i] = sysRow S i := by
    unfold sysRow
    rw [List.getD_eq_getElem _ _ hi]
  rw [hrw]
  exact pivotIdx_of_shape S pvts S.planes.length h i hi

theorem zip_drop_cons_of_shape (S : System) (pvts : List ℕ)
    (h : IsRREFShape S pvts S.planes.length) (t : ℕ) (ht : t < S.planes.length) :
    (S.planes.zip (pivotList S)).drop t
      = (sysRow S t, some (pvts.getD t 0)) :: (S.planes.zip (pivotList S)).drop (t + 1) := by
  have hzlen : (S.planes.zip (pivotList S)).length = S.planes.length := by
    rw [List.length_zip, pivotList_length]
    exact Nat.min_self _
  have htz : t < (S.planes.zip (pivotList S)).length := by rw [hzlen]; exact ht
  rw [List.drop_eq_getElem_cons htz]
  have hget : (S.planes.zip (pivotList S))[t]
      = (sysRow S t, some (pvts.getD t 0)) := by
    rw [List.getElem_zip]
    have hrw : S.planes[t] = sysRow S t := by
      unfold sysRow
      rw [List.getD_eq_getElem _ _ ht]
    rw [hrw, pivotList_getElem_of_shape S pvts h t ht
      (by rw [pivotList_length]; exact ht)]
  rw [hget]

theorem getD_replicate_zero (n c : ℕ) : (List.replicate n (0 : ℚ)).getD c 0 = 0 := by
  rcases Nat.lt_or_ge c n with h1 | h1
  · rw [List.getD_eq_getElem _ _ (by simpa using h1), List.getElem_replicate]
  · exact List.getD_eq_default _ _ (by simpa using h1)

theorem bpLoop_props (S : System) (pvts : List ℕ)
    (h : IsRREFShape S pvts S.planes.length) :
    ∀ (m t : ℕ), m = S.planes.length - t → t ≤ S.planes.length →
    ∀ acc : List ℚ, acc.length = S.dimension →
      (bpLoop ((S.planes.zip (pivotList S)).drop t) acc).length = S.dimension ∧
      (∀ i, t ≤ i → i < S.planes.length →
        (bpLoop ((S.planes.zip (pivotList S)).drop t) acc).getD (pvts.getD i 0) 0
          = (sysRow S i).const) ∧
      (∀ c, (∀ i, t ≤ i → i < S.planes.length → pvts.getD i 0 ≠ c) →
        (bpLoop ((S.planes.zip (pivotList S)).drop t) acc).getD c 0 = acc.getD c 0) := by
  intro m
  induction m with
  | zero =>
    intro t hm ht acc hacc
    have hteq : t = S.planes.length := by omega
    have hdrop : (S.planes.zip (pivotList S)).drop t = [] := by
      apply List.drop_eq_nil_of_le
      rw [List.length_zip, pivotList_length, Nat.min_self, hteq]
    rw [hdrop]
    exact ⟨hacc, fun i h1 h2 => by omega, fun c _ => rfl⟩
  | succ m ih =>
    intro t hm ht acc hacc
    have htl : t < S.planes.length := by omega
    rw [zip_drop_cons_of_shape S pvts h t htl]
    show (bpLoop ((S.planes.zip (pivotList S)).drop (t + 1))
        (acc.set (pvts.getD t 0) (sysRow S t).const)).length = S.dimension ∧
      (∀ i, t ≤ i → i < S.planes.length →
        (bpLoop ((S.planes.zip (pivotList S)).drop (t + 1))
          (acc.set (pvts.getD t 0) (sysRow S t).const)).getD (pvts.getD i 0) 0
            = (sysRow S i).const) ∧
      (∀ c, (∀ i, t ≤ i → i < S.planes.length → pvts.getD i 0 ≠ c) →
        (bpLoop ((S.planes.zip (pivotList S)).drop (t + 1))
          (acc.set (pvts.getD t 0) (sysRow S t).const)).getD c 0 = acc.getD c 0)
    obtain ⟨ih1, ih2, ih3⟩ := ih (t + 1) (by omega) (by omega)
      (acc.set (pvts.getD t 0) (sysRow S t).const)
      (by rw [List.length_set]; exact hacc)
    refine ⟨ih1, ?_, ?_⟩
    · intro i hti hi
      rcases Nat.eq_or_lt_of_le hti with heq | hlt
      · subst heq
        rw [ih3 (pvts.getD t 0) (fun j h1 h2 =>
          ne_of_gt (h.2.2.2.2.1 t htl j h2 (by omega)))]
        exact getD_set_self_lt _ _ _ _ (by rw [hacc]; exact h.2.2.2.1 t htl)
      · exact ih2 i (by omega) hi
    · intro c hc
      rw [ih3 c (fun j h1 h2 => hc j (by omega) h2)]
      exact getD_set_ne _ _ _ _ _ (hc t (le_refl t) htl)

theorem getBasepoint_props (S : System) (pvts : List ℕ)
    (h : IsRREFShape S pvts S.planes.length) :
    (getBasepoint S).length = S.dimension ∧
    (∀ i < S.planes.length,
      (getBasepoint S).getD (pvts.getD i 0) 0 = (sysRow S i).const) ∧
    (∀ c, (∀ i < S.planes.length, pvts.getD i 0 ≠ c) →
      (getBasepoint S).getD c 0 = 0) := by
  have hmain := bpLoop_props S pvts h (S.planes.length - 0) 0 rfl (Nat.zero_le _)
    (List.replicate S.dimension 0) (List.length_replicate _ _)
  rw [List.drop_zero] at hmain
  obtain ⟨h1, h2, h3⟩ := hmain
  refine ⟨h1, fun i hi => h2 i (Nat.zero_le _) hi, fun c hc => ?_⟩
  show (bpLoop (S.planes.zip (pivotList S))
    (List.replicate S.dimension 0)).getD c 0 = 0
  rw [h3 c (fun i _ hi => hc i hi)]
  exact getD_replicate_zero _ _

theorem dvLoop_props (S : System) (pvts : List ℕ)
    (h : IsRREFShape S pvts S.planes.length) (fv : ℕ) :
    ∀ (m t : ℕ), m = S.planes.length - t → t ≤ S.planes.length →
    ∀ acc : List ℚ, acc.length = S.dimension →
      (dvLoop fv ((S.planes.zip (pivotList S)).drop t) acc).length = S.dimension ∧
      (∀ i, t ≤ i → i < S.planes.length →
        (dvLoop fv ((S.planes.zip (pivotList S)).drop t) acc).getD (pvts.getD i 0) 0
          = 0 - rowCoeff (sysRow S i) fv) ∧
      (∀ c, (∀ i, t ≤ i → i < S.planes.length → pvts.getD i 0 ≠ c) →
        (dvLoop fv ((S.planes.zip (pivotList S)).drop t) acc).getD c 0 = acc.getD c 0) := by
  intro m
  induction m with
  | zero =>
    intro t hm ht acc hacc
    have hdrop : (S.planes.zip (pivotList S)).drop t = [] := by
      apply List.drop_eq_nil_of_le
      rw [List.length_zip, pivotList_length, Nat.min_self]
      omega
    rw [hdrop]
    exact ⟨hacc, fun i h1 h2 => by omega, fun c _ => rfl⟩
  | succ m ih =>
    intro t hm ht acc hacc
    have htl : t < S.planes.length := by omega
    rw [zip_drop_cons_of_shape S pvts h t htl]
    show (dvLoop fv ((S.planes.zip (pivotList S)).drop (t + 1))
        (acc.set (pvts.getD t 0) (0 - rowCoeff (sysRow S t) fv))).length
          = S.dimension ∧
      (∀ i, t ≤ i → i < S.planes.length →
        (dvLoop fv ((S.planes.zip (pivotList S)).drop (t + 1))
          (acc.set (pvts.getD t 0) (0 - rowCoeff (sysRow S t) fv))).getD
            (pvts.getD i 0) 0 = 0 - rowCoeff (sysRow S i) fv) ∧
      (∀ c, (∀ i, t ≤ i → i < S.planes.length → pvts.getD i 0 ≠ c) →
        (dvLoop fv ((S.planes.zip (pivotList S)).drop (t + 1))
          (acc.set (pvts.getD t 0) (0 - rowCoeff (sysRow S t) fv))).getD c 0
            = acc.getD c 0)
    obtain ⟨ih1, ih2, ih3⟩ := ih (t + 1) (by omega) (by omega)
      (acc.set (pvts.getD t 0) (0 - rowCoeff (sysRow S t) fv))
      (by rw [List.length_set]; exact hacc)
    refine ⟨ih1, ?_, ?_⟩
    · intro i hti hi
      rcases Nat.eq_or_lt_of_le hti with heq | hlt
      · subst heq
        rw [ih3 (pvts.getD t 0) (fun j h1 h2 =>
          ne_of_gt (h.2.2.2.2.1 t htl j h2 (by omega)))]
        exact getD_set_self_lt _ _ _ _ (by rw [hacc]; exact h.2.2.2.1 t htl)
      · exact ih2 i (by omega) hi
    · intro c hc
      rw [ih3 c (fun j h1 h2 => hc j (by omega) h2)]
      exact getD_set_ne _ _ _ _ _ (hc t (le_refl t) htl)

theorem mem_freeCols_iff (S : System) (pvts : List ℕ)
    (h : IsRREFShape S pvts S.planes.length) (c : ℕ) :
    c ∈ freeCols S ↔
      c < S.dimension ∧ ∀ i < S.planes.length, pvts.getD i 0 ≠ c := by
  unfold freeCols
  rw [List.mem_filter, List.mem_range]
  have hcontains : ((pivotList S).contains (some c) = true) ↔
      ∃ i < S.planes.length, pvts.getD i 0 = c := by
    rw [List.contains_iff_exists_mem_beq]
    constructor
    · rintro ⟨a, ha, hbeq⟩
      have haeq : some c = a := eq_of_beq hbeq
      rcases List.mem_iff_getElem.mp ha with ⟨i, hi, hgi⟩
      have hilen : i < S.planes.length := by
        rw [pivotList_length] at hi
        exact hi
      refine ⟨i, hilen, ?_⟩
      rw [pivotList_getElem_of_shape S pvts h i hilen (by rw [pivotList_length]; exact hilen)] at hgi
      have : some (pvts.getD i 0) = some c := by rw [hgi, ← haeq]
      exact Option.some_inj.mp this
    · rintro ⟨i, hi, hpi⟩
      have hilen : i < (pivotList S).length := by
        rw [pivotList_length]
        exact hi
      refine ⟨(pivotList S)[i], List.getElem_mem hilen, ?_⟩
      rw [pivotList_getElem_of_shape S pvts h i hi hilen, hpi]
      exact beq_self_eq_true _
    
  constructor
  · rintro ⟨hcd, hnc⟩
    refine ⟨hcd, ?_⟩
    intro i hi
    intro heq
    rw [Bool.not_eq_eq_eq_not] at hnc
    have : (pivotList S).contains (some c) = true := hcontains.mpr ⟨i, hi, heq⟩
    rw [this] at hnc
    cases hnc
  · rintro ⟨hcd, hfree⟩
    refine ⟨hcd, ?_⟩
    have : ¬((pivotList S).contains (some c) = true) := by
      intro hcon
      rcases hcontains.mp hcon with ⟨i, hi, hpi⟩
      exact hfree i hi hpi
    rw [Bool.not_eq_true] at this
    rw [this]
    rfl

theorem dirVec_props (S : System) (pvts : List ℕ)
    (h : IsRREFShape S pvts S.planes.length) (fv : ℕ) (hfv : fv ∈ freeCols S) :
    (dirVec S fv).length = S.dimension ∧
    (dirVec S fv).getD fv 0 = 1 ∧
    (∀ i < S.planes.length,
      (dirVec S fv).getD (pvts.getD i 0) 0 = -(rowCoeff (sysRow S i) fv)) ∧
    (∀ c, c ≠ fv → (∀ i < S.planes.length, pvts.getD i 0 ≠ c) →
      (dirVec S fv).getD c 0 = 0) := by
  rcases (mem_freeCols_iff S pvts h fv).mp hfv with ⟨hfvd, hfvfree⟩
  have hmain := dvLoop_props S pvts h fv (S.planes.length - 0) 0 rfl (Nat.zero_le _)
    ((List.replicate S.dimension 0).set fv 1)
    (by rw [List.length_set]; exact List.length_replicate _ _)
  rw [List.drop_zero] at hmain
  obtain ⟨h1, h2, h3⟩ := hmain
  refine ⟨h1, ?_, ?_, ?_⟩
  · show (dvLoop fv (S.planes.zip (pivotList S))
      ((List.replicate S.dimension 0).set fv 1)).getD fv 0 = 1
    rw [h3 fv (fun i _ hi => hfvfree i hi)]
    exact getD_set_self_lt _ _ _ _ (by rw [List.length_replicate]; exact hfvd)
  · intro i hi
    have := h2 i (Nat.zero_le _) hi
    rw [zero_sub] at this
    exact this
  · intro c hcfv hcfree
    show (dvLoop fv (S.planes.zip (pivotList S))
      ((List.replicate S.dimension 0).set fv 1)).getD c 0 = 0
    rw [h3 c (fun i _ hi => hcfree i hi)]
    rw [getD_set_ne _ _ _ _ _ (fun e => hcfv e.symm)]
    exact getD_replicate_zero _ _

/-- C2: on an RREF system with all rows pivot rows and fewer rows than the
dimension, `gaussian_elimination` returns the parametric solution whose
basepoint carries each pivot row's constant at that row's pivot column and
`0` everywhere else, and which has exactly one direction vector per free
column (in increasing order of free column), each with `1` at its free
column, the negated row coefficient at each pivot row's pivot column, and
`0` at every other position. -/
theorem C2_parametric_data (S : System) (pvts : List ℕ)
    (h : IsRREFShape S pvts S.planes.length)
    (hlt : S.planes.length < S.dimension) :
    (gaussianElimination S =
      .parametric (getBasepoint S) (getDirectionVectors S)) ∧
    (getBasepoint S).length = S.dimension ∧
    (∀ i < S.planes.length,
      (getBasepoint S).getD (pvts.getD i 0) 0 = (sysRow S i).const) ∧
    (∀ c, (∀ i < S.planes.length, pvts.getD i 0 ≠ c) →
      (getBasepoint S).getD c 0 = 0) ∧
    getDirectionVectors S = (freeCols S).map (dirVec S) ∧
    (∀ c, c ∈ freeCols S ↔
      (c < S.dimension ∧ ∀ i < S.planes.length, pvts.getD i 0 ≠ c)) ∧
    (∀ fv ∈ freeCols S,
      (dirVec S fv).length = S.dimension ∧
      (dirVec S fv).getD fv 0 = 1 ∧
      (∀ i < S.planes.length,
        (dirVec S fv).getD (pvts.getD i 0) 0 = -(rowCoeff (sysRow S i) fv)) ∧
      (∀ c, c ≠ fv → (∀ i < S.planes.length, pvts.getD i 0 ≠ c) →
        (dirVec S fv).getD c 0 = 0)) := by
  have hfix : computeRref S = S := computeRref_fix_of_shape S pvts _ h
  have hni : noIntersections S = false := noIntersections_false_of_shape S pvts h
  have hdrop : dropZeroRows S = S := dropZeroRows_id_of_shape S pvts h
  have hinf : infiniteAfterDrop S = true := infiniteAfterDrop_true_of_lt S hlt
  obtain ⟨b1, b2, b3⟩ := getBasepoint_props S pvts h
  refine ⟨?_, b1, b2, b3, rfl, fun c => mem_freeCols_iff S pvts h c,
    fun fv hfv => dirVec_props S pvts h fv hfv⟩
  simp [gaussianElimination, hfix, hni, hdrop, hinf]

/-- A one-row underdetermined system in exact RREF shape. -/
def c2Sys : System := ⟨[⟨[1, 2], 3⟩], 2⟩

/-- Witness for C2 at a concrete underdetermined system. -/
theorem C2_witness :
    gaussianElimination c2Sys =
      .parametric (getBasepoint c2Sys) (getDirectionVectors c2Sys) :=
  (C2_parametric_data c2Sys [0] (by with_unfolding_all decide) (by decide)).1


/-! ## C5: pivot normalization of `compute_rref` -/

/-- Exact triangular shape with `k` pivot rows listed in `pvts` and the
remaining rows exactly zero: pivot columns in range and strictly increasing,
a non-round-9-zero coefficient at each pivot, and exact zeros left of each
pivot (exactly what triangularization produces when no tolerance anomaly
occurs). -/
def IsTriShape (S : System) (pvts : List ℕ) (k : ℕ) : Prop :=
  k ≤ S.planes.length ∧
  pvts.length = k ∧
  (∀ p ∈ S.planes, p.coeffs.length = S.dimension) ∧
  (∀ i < k, pvts.getD i 0 < S.dimension) ∧
  (∀ i < k, ∀ j < k, i < j → pvts.getD i 0 < pvts.getD j 0) ∧
  (∀ i < k, round9zero (rowCoeff (sysRow S i) (pvts.getD i 0)) = false) ∧
  (∀ i < k, ∀ c < pvts.getD i 0, rowCoeff (sysRow S i) c = 0) ∧
  (∀ i < S.planes.length, k ≤ i → ZeroCoeffRow (sysRow S i))

instance (S : System) (pvts : List ℕ) (k : ℕ) : Decidable (IsTriShape S pvts k) := by
  unfold IsTriShape
  infer_instance

theorem ne_zero_of_round9zero_false (x : ℚ) (h : round9zero x = false) : x ≠ 0 := by
  intro e
  subst e
  rw [round9zero_zero] at h
  cases h

theorem pivotIdx_of_triShape (S : System) (pvts : List ℕ) (k : ℕ)
    (h : IsTriShape S pvts k) (i : ℕ) (hik : i < k) :
    pivotIdx (sysRow S i) = some (pvts.getD i 0) := by
  have hi : i < S.planes.length := lt_of_lt_of_le hik h.1
  rw [show pivotIdx (sysRow S i) = firstNonzeroIndex (sysRow S i).coeffs from rfl,
    firstNonzeroIndex_some_iff]
  refine ⟨?_, h.2.2.2.2.2.1 i hik, ?_⟩
  · rw [h.2.2.1 _ (sysRow_mem S i hi)]
    exact h.2.2.2.1 i hik
  · intro j hj
    show round9zero (rowCoeff (sysRow S i) j) = true
    rw [h.2.2.2.2.2.2.1 i hik j hj]
    exact round9zero_zero

theorem pivotList_getD_of_triShape (S : System) (pvts : List ℕ) (k : ℕ)
    (h : IsTriShape S pvts k) (i : ℕ) :
    (pivotList S).getD i none =
      if i < S.planes.length then
        (if i < k then some (pvts.getD i 0) else none)
      else none := by
  by_cases hi : i < S.planes.length
  · rw [if_pos hi]
    unfold pivotList
    rw [List.getD_eq_getElem _ _ (by simpa using hi), List.getElem_map]
    have hrow : S.planes[i] = sysRow S i := by
      unfold sysRow
      rw [List.getD_eq_getElem _ _ hi]
    rw [hrow]
    by_cases hik : i < k
    · rw [if_pos hik]
      exact pivotIdx_of_triShape S pvts k h i hik
    · rw [if_neg hik]
      exact zeroCoeff_pivotIdx _ (h.2.2.2.2.2.2.2 i hi (Nat.le_of_not_lt hik))
  · rw [if_neg hi]
    unfold pivotList
    exact List.getD_eq_default _ _ (by simpa using Nat.le_of_not_lt hi)

theorem rowCoeff_scaleMul (kk : ℚ) (p : Plane) (j : ℕ) :
    rowCoeff (scaleMul kk p) j = kk * rowCoeff p j := by
  unfold rowCoeff scaleMul
  rcases Nat.lt_or_ge j p.coeffs.length with h1 | h1
  · rw [List.getD_eq_getElem _ _ (by simpa using h1), List.getElem_map,
      List.getD_eq_getElem _ _ h1]
  · rw [List.getD_eq_default _ _ (by simpa using h1),
      List.getD_eq_default _ _ h1, mul_zero]

theorem rowCoeff_addScaled (kk : ℚ) (p q : Plane) (j : ℕ)
    (hj : j < q.coeffs.length) :
    rowCoeff (addScaled kk p q) j = rowCoeff q j + kk * rowCoeff p j := by
  show ((List.range q.coeffs.length).map
      (fun i => rowCoeff q i + kk * rowCoeff p i)).getD j 0 = _
  rw [List.getD_eq_getElem _ _ (by simpa using hj), List.getElem_map,
    List.getElem_range]

theorem coeffs_length_scaleMul (kk : ℚ) (p : Plane) :
    (scaleMul kk p).coeffs.length = p.coeffs.length := by
  unfold scaleMul
  exact List.length_map _ _

theorem coeffs_length_addScaled (kk : ℚ) (p q : Plane) :
    (addScaled kk p q).coeffs.length = q.coeffs.length := by
  show ((List.range q.coeffs.length).map _).length = _
  rw [List.length_map, List.length_range]

/-- Effect of the `clear_coefficients_above` fold on each row: rows outside
the target list are untouched; each target row `t` (hit exactly once, with
the pivot row outside the list) ends as its original value plus
`-(its original coefficient at the pivot column)` times the original pivot
row. -/
theorem clearAboveFold_effect (mrow c : ℕ) :
    ∀ (ts : List ℕ) (D : System),
      (∀ t ∈ ts, t < D.planes.length ∧ t ≠ mrow) → ts.Nodup →
      (∀ i, i ∉ ts →
        sysRow (ts.foldl
          (fun sys k => addMulRow sys (-(rowCoeff (sysRow sys k) c)) mrow k) D) i
          = sysRow D i) ∧
      (∀ t ∈ ts,
        sysRow (ts.foldl
          (fun sys k => addMulRow sys (-(rowCoeff (sysRow sys k) c)) mrow k) D) t
          = addScaled (-(rowCoeff (sysRow D t) c)) (sysRow D mrow) (sysRow D t)) := by
  intro ts
  induction ts with
  | nil => exact fun D _ _ => ⟨fun i _ => rfl, fun t ht => absurd ht (List.not_mem_nil t)⟩
  | cons t ts ih =>
    intro D hts hnd
    have htlen : t < D.planes.length := (hts t (List.mem_cons_self _ _)).1
    have htm : t ≠ mrow := (hts t (List.mem_cons_self _ _)).2
    have hnd2 : ts.Nodup := (List.nodup_cons.mp hnd).2
    have htnotmem : t ∉ ts := (List.nodup_cons.mp hnd).1
    set D1 := addMulRow D (-(rowCoeff (sysRow D t) c)) mrow t with hD1
    have hD1row : ∀ i, sysRow D1 i =
        if i = t then addScaled (-(rowCoeff (sysRow D t) c)) (sysRow D mrow) (sysRow D t)
        else sysRow D i := by
      intro i
      exact sysRow_set D _ t i htlen
    have hts2 : ∀ t2 ∈ ts, t2 < D1.planes.length ∧ t2 ≠ mrow := by
      intro t2 ht2
      have := hts t2 (List.mem_cons_of_mem _ ht2)
      refine ⟨?_, this.2⟩
      rw [hD1]
      rw [length_addMulRow]
      exact this.1
    obtain ⟨ihout, ihin⟩ := ih D1 hts2 hnd2
    rw [List.foldl_cons]
    constructor
    · intro i hi
      have hit : i ≠ t := fun e => hi (e ▸ List.mem_cons_self _ _)
      have hits : i ∉ ts := fun e => hi (List.mem_cons_of_mem _ e)
      rw [show (ts.foldl
          (fun sys k => addMulRow sys (-(rowCoeff (sysRow sys k) c)) mrow k) D1)
          = ts.foldl
            (fun sys k => addMulRow sys (-(rowCoeff (sysRow sys k) c)) mrow k)
            (addMulRow D (-(rowCoeff (sysRow D t) c)) mrow t) from rfl]
      rw [show addMulRow D (-(rowCoeff (sysRow D t) c)) mrow t = D1 from rfl]
      rw [ihout i hits, hD1row i, if_neg hit]
    · intro t2 ht2
      rcases List.mem_cons.mp ht2 with rfl | ht2s
      · rw [show addMulRow D (-(rowCoeff (sysRow D t2) c)) mrow t2 = D1 from rfl]
        rw [ihout t2 htnotmem, hD1row t2, if_pos rfl]
      · rw [show addMulRow D (-(rowCoeff (sysRow D t) c)) mrow t = D1 from rfl]
        rw [ihin t2 ht2s]
        have he1 : sysRow D1 t2 = sysRow D t2 := by
          rw [hD1row t2, if_neg (fun (e : t2 = t) => htnotmem (e ▸ ht2s))]
        have he2 : sysRow D1 mrow = sysRow D mrow := by
          rw [hD1row mrow, if_neg (fun e => htm e.symm)]
        rw [he1, he2]


/-- Invariant of the reversed scan of `compute_rref` started from a
triangular-shaped system `T`: in state `C`, all row indices `≥ m` have been
processed, so their pivot coefficients are exactly `1` and their pivot
columns are exactly `0` on every other row, while unprocessed pivot rows
still carry their original pivot value; exact zeros left of pivots and the
exactly-zero rows persist throughout. -/
def RrefInv (T : System) (pvts : List ℕ) (k : ℕ) (C : System) (m : ℕ) : Prop :=
  C.planes.length = T.planes.length ∧
  C.dimension = T.dimension ∧
  (∀ i < C.planes.length, (sysRow C i).coeffs.length = T.dimension) ∧
  (∀ r < k, ∀ x < pvts.getD r 0, rowCoeff (sysRow C r) x = 0) ∧
  (∀ i < C.planes.length, k ≤ i → ZeroCoeffRow (sysRow C i)) ∧
  (∀ j, m ≤ j → j < k → rowCoeff (sysRow C j) (pvts.getD j 0) = 1) ∧
  (∀ j, m ≤ j → j < k → ∀ i < C.planes.length, i ≠ j →
    rowCoeff (sysRow C i) (pvts.getD j 0) = 0) ∧
  (∀ j < k, j < m → rowCoeff (sysRow C j) (pvts.getD j 0)
    = rowCoeff (sysRow T j) (pvts.getD j 0))

theorem rrefInv_init (T : System) (pvts : List ℕ) (k : ℕ)
    (h : IsTriShape T pvts k) : RrefInv T pvts k T T.planes.length := by
  have h1 := h.1
  refine ⟨rfl, rfl, ?_, h.2.2.2.2.2.2.1, h.2.2.2.2.2.2.2, ?_, ?_,
    fun j hjk hjm => rfl⟩
  · intro i hi
    exact h.2.2.1 _ (sysRow_mem T i hi)
  · intro j hj hjk
    exact absurd hjk (by omega)
  · intro j hj hjk i hi hij
    exact absurd hjk (by omega)

theorem rrefInv_skip (T : System) (pvts : List ℕ) (k : ℕ) (C : System) (m : ℕ)
    (hmk : ¬ m < k) (hinv : RrefInv T pvts k C (m + 1)) : RrefInv T pvts k C m := by
  obtain ⟨l1, l2, l3, l4, l5, l6, l7, l8⟩ := hinv
  refine ⟨l1, l2, l3, l4, l5, ?_, ?_, ?_⟩
  · intro j hj hjk
    exact absurd hjk (by omega)
  · intro j hj hjk i hi hij
    exact absurd hjk (by omega)
  · intro j hjk hjm
    exact l8 j hjk (by omega)

theorem rrefInv_step (T : System) (pvts : List ℕ) (k : ℕ)
    (htri : IsTriShape T pvts k) (C : System) (m : ℕ)
    (hm : m < T.planes.length) (hmk : m < k) (hinv : RrefInv T pvts k C (m + 1)) :
    RrefInv T pvts k
      (clearAbove (scaleRow C m (pvts.getD m 0)) m (pvts.getD m 0)) m := by
  obtain ⟨l1, l2, l3, l4, l5, l6, l7, l8⟩ := hinv
  have hmC : m < C.planes.length := by rw [l1]; exact hm
  have hcd : pvts.getD m 0 < T.dimension := htri.2.2.2.1 m hmk
  have hveq : rowCoeff (sysRow C m) (pvts.getD m 0)
      = rowCoeff (sysRow T m) (pvts.getD m 0) := l8 m hmk (Nat.lt_succ_self m)
  have hvne : rowCoeff (sysRow C m) (pvts.getD m 0) ≠ 0 := by
    rw [hveq]
    exact ne_zero_of_round9zero_false _ (htri.2.2.2.2.2.1 m hmk)
  have hC1eq : scaleRow C m (pvts.getD m 0)
      = multiplyRow C (1 / rowCoeff (sysRow C m) (pvts.getD m 0)) m := rfl
  have hC1row : ∀ i, sysRow (scaleRow C m (pvts.getD m 0)) i =
      if i = m then scaleMul (1 / rowCoeff (sysRow C m) (pvts.getD m 0)) (sysRow C m)
      else sysRow C i := by
    intro i
    rw [hC1eq]
    exact sysRow_set C _ m i hmC
  have hC1len : (scaleRow C m (pvts.getD m 0)).planes.length = C.planes.length := by
    rw [hC1eq]
    exact length_multiplyRow _ _ _
  have hC1m : ∀ x, rowCoeff (sysRow (scaleRow C m (pvts.getD m 0)) m) x
      = (1 / rowCoeff (sysRow C m) (pvts.getD m 0)) * rowCoeff (sysRow C m) x := by
    intro x
    rw [hC1row m, if_pos rfl, rowCoeff_scaleMul]
  have hC1ne : ∀ i, i ≠ m → sysRow (scaleRow C m (pvts.getD m 0)) i = sysRow C i := by
    intro i hi
    rw [hC1row i, if_neg hi]
  have hC1pivot : rowCoeff (sysRow (scaleRow C m (pvts.getD m 0)) m) (pvts.getD m 0) = 1 := by
    rw [hC1m]
    rw [one_div, inv_mul_cancel₀ hvne]
  have hC1rowlen : ∀ i < C.planes.length,
      (sysRow (scaleRow C m (pvts.getD m 0)) i).coeffs.length = T.dimension := by
    intro i hi
    by_cases him : i = m
    · rw [him, hC1row m, if_pos rfl, coeffs_length_scaleMul]
      exact l3 m hmC
    · rw [hC1ne i him]
      exact l3 i hi
  -- effect of the upward clearing pass
  have hef := clearAboveFold_effect m (pvts.getD m 0) (List.range m).reverse
    (scaleRow C m (pvts.getD m 0))
    (by
      intro t ht
      have htm : t < m := List.mem_range.mp (List.mem_reverse.mp ht)
      refine ⟨?_, by omega⟩
      rw [hC1len]
      omega)
    (List.nodup_reverse.mpr (List.nodup_range m))
  obtain ⟨hout, hin⟩ := hef
  have hCA : clearAbove (scaleRow C m (pvts.getD m 0)) m (pvts.getD m 0)
      = ((List.range m).reverse).foldl
          (fun sys kk => addMulRow sys (-(rowCoeff (sysRow sys kk) (pvts.getD m 0))) m kk)
          (scaleRow C m (pvts.getD m 0)) := rfl
  have hge : ∀ i, m ≤ i →
      sysRow (clearAbove (scaleRow C m (pvts.getD m 0)) m (pvts.getD m 0)) i
        = sysRow (scaleRow C m (pvts.getD m 0)) i := by
    intro i hi
    rw [hCA]
    exact hout i (fun hmem => by
      have := List.mem_range.mp (List.mem_reverse.mp hmem)
      omega)
  have hlt : ∀ t, t < m →
      sysRow (clearAbove (scaleRow C m (pvts.getD m 0)) m (pvts.getD m 0)) t
        = addScaled (-(rowCoeff (sysRow (scaleRow C m (pvts.getD m 0)) t) (pvts.getD m 0)))
            (sysRow (scaleRow C m (pvts.getD m 0)) m)
            (sysRow (scaleRow C m (pvts.getD m 0)) t) := by
    intro t ht
    rw [hCA]
    exact hin t (List.mem_reverse.mpr (List.mem_range.mpr ht))
  have hlt2 : ∀ t, t < m →
      sysRow (clearAbove (scaleRow C m (pvts.getD m 0)) m (pvts.getD m 0)) t
        = addScaled (-(rowCoeff (sysRow C t) (pvts.getD m 0)))
            (sysRow (scaleRow C m (pvts.getD m 0)) m) (sysRow C t) := by
    intro t ht
    rw [hlt t ht, hC1ne t (by omega)]
  have hlenCA : (clearAbove (scaleRow C m (pvts.getD m 0)) m (pvts.getD m 0)).planes.length
      = C.planes.length := by
    rw [(shape_clearAbove _ _ _).1, hC1len]
  have hdimCA : (clearAbove (scaleRow C m (pvts.getD m 0)) m (pvts.getD m 0)).dimension
      = C.dimension := by
    rw [(shape_clearAbove _ _ _).2, hC1eq]
    rfl
  -- coefficient lemmas on the cleared system
  have hcoeff_lt : ∀ t, t < m → ∀ x, x < T.dimension →
      rowCoeff (sysRow (clearAbove (scaleRow C m (pvts.getD m 0)) m (pvts.getD m 0)) t) x
        = rowCoeff (sysRow C t) x +
          (-(rowCoeff (sysRow C t) (pvts.getD m 0))) *
            rowCoeff (sysRow (scaleRow C m (pvts.getD m 0)) m) x := by
    intro t ht x hx
    rw [hlt2 t ht, rowCoeff_addScaled]
    rw [l3 t (by omega)]
    exact hx
  refine ⟨hlenCA.trans l1, hdimCA.trans l2, ?_, ?_, ?_, ?_, ?_, ?_⟩
  · -- row lengths
    intro i hi
    rw [hlenCA] at hi
    by_cases him : i < m
    · rw [hlt2 i him, coeffs_length_addScaled]
      exact l3 i hi
    · rw [hge i (by omega)]
      exact hC1rowlen i hi
  · -- zeros left of pivots
    intro r hr x hx
    have hrlen : r < C.planes.length := by rw [l1]; exact lt_of_lt_of_le hr htri.1
    have hxd : x < T.dimension := lt_trans hx (htri.2.2.2.1 r hr)
    by_cases hrm : r < m
    · rw [hcoeff_lt r hrm x hxd, l4 r hr x hx, hC1m x]
      have hxm : x < pvts.getD m 0 := lt_trans hx (htri.2.2.2.2.1 r hr m hmk hrm)
      rw [l4 m hmk x hxm]
      ring
    · rw [hge r (by omega)]
      by_cases hrm2 : r = m
      · rw [hrm2, hC1m x]
        rw [l4 m hmk x (by rw [← hrm2]; exact hx)]
        ring
      · rw [hC1ne r hrm2]
        exact l4 r hr x hx
  · -- zero rows persist
    intro i hi hik
    rw [hlenCA] at hi
    have him : m < i := by omega
    rw [hge i (by omega), hC1ne i (by omega)]
    exact l5 i hi hik
  · -- processed pivots are 1
    intro j hj hjk
    by_cases hjm : j = m
    · rw [hjm, hge m (le_refl m)]
      exact hC1pivot
    · rw [hge j hj, hC1ne j hjm]
      exact l6 j (by omega) hjk
  · -- processed pivot columns are 0 elsewhere
    intro j hj hjk i hi hij
    rw [hlenCA] at hi
    have hjd : pvts.getD j 0 < T.dimension := htri.2.2.2.1 j hjk
    by_cases hjm : j = m
    · rw [hjm]
      by_cases him : i < m
      · rw [hcoeff_lt i him (pvts.getD m 0) hcd, hC1pivot]
        ring
      · rw [hge i (by omega), hC1ne i (by omega)]
        by_cases hik : i < k
        · exact l4 i hik (pvts.getD m 0)
            (htri.2.2.2.2.1 m hmk i hik (by omega))
        · exact zeroCoeff_rowCoeff _ (l5 i hi (Nat.le_of_not_lt hik)) _
    · have hjgt : m < j := by omega
      by_cases him : i < m
      · rw [hcoeff_lt i him (pvts.getD j 0) hjd]
        rw [l7 j (by omega) hjk i (by omega) (by omega), hC1m]
        rw [l7 j (by omega) hjk m hmC (by omega)]
        ring
      · rw [hge i (by omega)]
        by_cases him2 : i = m
        · rw [him2, hC1m]
          rw [l7 j (by omega) hjk m hmC (by omega)]
          ring
        · rw [hC1ne i him2]
          exact l7 j (by omega) hjk i hi hij
  · -- unprocessed pivots keep their triangular value
    intro j hjk hjm
    have hjd : pvts.getD j 0 < T.dimension := htri.2.2.2.1 j hjk
    rw [hcoeff_lt j hjm (pvts.getD j 0) hjd, hC1m]
    have hjp : pvts.getD j 0 < pvts.getD m 0 := htri.2.2.2.2.1 j hjk m hmk hjm
    rw [l4 m hmk (pvts.getD j 0) hjp, l8 j hjk (by omega)]
    ring


theorem rrefLoop_inv (T : System) (pvts : List ℕ) (k : ℕ)
    (htri : IsTriShape T pvts k) :
    ∀ (m : ℕ) (C : System), m ≤ T.planes.length → RrefInv T pvts k C m →
      RrefInv T pvts k (rrefLoop (pivotList T) C (List.range m).reverse) 0 := by
  intro m
  induction m with
  | zero =>
    intro C _ hinv
    exact hinv
  | succ m ih =>
    intro C hm hinv
    have hrange : (List.range (m + 1)).reverse = m :: (List.range m).reverse := by
      rw [List.range_succ, List.reverse_append]
      rfl
    rw [hrange]
    have hpl := pivotList_getD_of_triShape T pvts k htri m
    rw [if_pos (by omega)] at hpl
    by_cases hmk : m < k
    · rw [if_pos hmk] at hpl
      have hstep : rrefLoop (pivotList T) C (m :: (List.range m).reverse)
          = rrefLoop (pivotList T)
              (clearAbove (scaleRow C m (pvts.getD m 0)) m (pvts.getD m 0))
              (List.range m).reverse := by
        show (match (pivotList T).getD m none with
          | none => rrefLoop (pivotList T) C (List.range m).reverse
          | some c => rrefLoop (pivotList T)
              (clearAbove (scaleRow C m c) m c) (List.range m).reverse) = _
        rw [hpl]
      rw [hstep]
      exact ih _ (by omega) (rrefInv_step T pvts k htri C m (by omega) hmk hinv)
    · rw [if_neg hmk] at hpl
      have hstep : rrefLoop (pivotList T) C (m :: (List.range m).reverse)
          = rrefLoop (pivotList T) C (List.range m).reverse := by
        show (match (pivotList T).getD m none with
          | none => rrefLoop (pivotList T) C (List.range m).reverse
          | some c => rrefLoop (pivotList T)
              (clearAbove (scaleRow C m c) m c) (List.range m).reverse) = _
        rw [hpl]
      rw [hstep]
      exact ih _ (by omega) (rrefInv_skip T pvts k C m hmk hinv)

/-- C5 amended: whenever the triangular form computed for a system is in
exact triangular shape (strictly increasing recorded pivots with exact
zeros to their left and exactly-zero remaining rows — which holds unless a
coefficient falls in the disagreement zone of the two tolerance tests), the
output of `compute_rref` gives every row that has a pivot the pivot
coefficient exactly `1`, and that pivot column is exactly `0` on every
other row, hence contains exactly one non-near-zero entry. -/
theorem C5_amended_rref_pivots (S : System) (pvts : List ℕ) (k : ℕ)
    (h : IsTriShape (computeTriangularForm S) pvts k) :
    ∀ i < (computeRref S).planes.length, ∀ c : ℕ,
      pivotIdx (sysRow (computeRref S) i) = some c →
      rowCoeff (sysRow (computeRref S) i) c = 1 ∧
      ∀ j < (computeRref S).planes.length, j ≠ i →
        rowCoeff (sysRow (computeRref S) j) c = 0 := by
  have hinv0 := rrefLoop_inv (computeTriangularForm S) pvts k h
    (computeTriangularForm S).planes.length (computeTriangularForm S) (le_refl _)
    (rrefInv_init (computeTriangularForm S) pvts k h)
  have hrref : computeRref S
      = rrefLoop (pivotList (computeTriangularForm S)) (computeTriangularForm S)
          (List.range (computeTriangularForm S).planes.length).reverse := rfl
  rw [hrref]
  obtain ⟨l1, l2, l3, l4, l5, l6, l7, l8⟩ := hinv0
  have hOpivot : ∀ i, i < k →
      pivotIdx (sysRow (rrefLoop (pivotList (computeTriangularForm S))
        (computeTriangularForm S)
        (List.range (computeTriangularForm S).planes.length).reverse) i)
      = some (pvts.getD i 0) := by
    intro i hik
    have hilen : i < (rrefLoop (pivotList (computeTriangularForm S))
        (computeTriangularForm S)
        (List.range (computeTriangularForm S).planes.length).reverse).planes.length := by
      rw [l1]
      exact lt_of_lt_of_le hik h.1
    rw [show pivotIdx (sysRow (rrefLoop (pivotList (computeTriangularForm S))
        (computeTriangularForm S)
        (List.range (computeTriangularForm S).planes.length).reverse) i)
      = firstNonzeroIndex (sysRow (rrefLoop (pivotList (computeTriangularForm S))
        (computeTriangularForm S)
        (List.range (computeTriangularForm S).planes.length).reverse) i).coeffs from rfl,
      firstNonzeroIndex_some_iff]
    refine ⟨?_, ?_, ?_⟩
    · rw [l3 i hilen]
      exact h.2.2.2.1 i hik
    · show round9zero (rowCoeff (sysRow (rrefLoop (pivotList (computeTriangularForm S))
        (computeTriangularForm S)
        (List.range (computeTriangularForm S).planes.length).reverse) i)
          (pvts.getD i 0)) = false
      rw [l6 i (Nat.zero_le _) hik]
      exact round9zero_one
    · intro j hj
      show round9zero (rowCoeff (sysRow (rrefLoop (pivotList (computeTriangularForm S))
        (computeTriangularForm S)
        (List.range (computeTriangularForm S).planes.length).reverse) i) j) = true
      rw [l4 i hik j hj]
      exact round9zero_zero
  intro i hi c hpiv
  by_cases hik : i < k
  · have hpi := hOpivot i hik
    rw [hpiv] at hpi
    have hceq : c = pvts.getD i 0 := Option.some_inj.mp hpi
    rw [hceq]
    refine ⟨l6 i (Nat.zero_le _) hik, ?_⟩
    intro j hj hji
    exact l7 i (Nat.zero_le _) hik j hj hji
  · have hnone := zeroCoeff_pivotIdx _ (l5 i hi (Nat.le_of_not_lt hik))
    rw [hpiv] at hnone
    cases hnone

/-- A concrete system already in exact triangular shape. -/
def c5TriSys : System := ⟨[⟨[2, 0], 4⟩, ⟨[0, 3], 6⟩], 2⟩

/-- Witness for the amended C5 at a concrete input. -/
theorem C5_witness :
    rowCoeff (sysRow (computeRref c5TriSys) 0) 0 = 1 ∧
      ∀ j < (computeRref c5TriSys).planes.length, j ≠ 0 →
        rowCoeff (sysRow (computeRref c5TriSys) j) 0 = 0 :=
  C5_amended_rref_pivots c5TriSys [0, 1] 2 (by with_unfolding_all decide) 0
    (by with_unfolding_all decide) 0 (by with_unfolding_all decide)

end LinAlg
